import Mathlib

/-!
Verification development for the FlipeX PDF text-reconstruction pipeline
(src/lib/pdfProcessor.ts and the OCR worker pool).

Shallow-embedding conventions used throughout this file:

* JavaScript strings are modelled as `List Char` (`Text` below); JS string
  operations (slice, trim, split, lastIndexOf, join) are modelled by
  corresponding list functions defined here with JS semantics.
* JS numbers appearing as geometric coordinates are modelled as exact
  rationals `ℚ`.  The arithmetic operations `qadd/qsub/qmul/qdiv` below are
  kernel-computable implementations via `mkRat`/`Rat.divInt`; they are proved
  equal to the field operations of `ℚ` (`qadd_eq` etc.), so theorems can be
  stated with ordinary `+ - * /`.
* The floating-point constant comparisons of the source
  (`MAX_CHARS_PER_PAGE * 1.15`, `* 1.1`, `* 0.3`) always compare an integer
  character count against the constant; the embedding uses the exact integer
  comparison that the double-precision evaluation realises
  (`x < 800*1.15 ↔ x < 920`, `x < 800*1.1 ↔ x ≤ 880` because
  `800*1.1 = 880.0000000000001` in IEEE double, and
  `ls > m*0.3 ↔ 10*ls > 3*m` at every reachable operand).
* Loops whose body may fail to make progress (the oversized-paragraph
  splitting loop of `segmentIntoPages` — see `c8_*`) are embedded with an
  explicit fuel parameter and an `Option` result; `none` means the fuel was
  exhausted.  All functions are structurally recursive so that concrete
  inputs evaluate inside the kernel.
-/

set_option maxRecDepth 200000

namespace FlipeX

/-! ## Exact rational arithmetic (kernel-computable) -/

/-- Kernel-computable addition on `ℚ` (proved equal to `+` below). -/
def qadd (a b : ℚ) : ℚ := mkRat (a.num * b.den + b.num * a.den) (a.den * b.den)

/-- Kernel-computable subtraction on `ℚ`. -/
def qsub (a b : ℚ) : ℚ := mkRat (a.num * b.den - b.num * a.den) (a.den * b.den)

/-- Kernel-computable multiplication on `ℚ`. -/
def qmul (a b : ℚ) : ℚ := mkRat (a.num * b.num) (a.den * b.den)

/-- Kernel-computable division on `ℚ`. -/
def qdiv (a b : ℚ) : ℚ := Rat.divInt (a.num * b.den) (a.den * b.num)

theorem mul_den_eq_num (a : ℚ) : a * (a.den : ℚ) = (a.num : ℚ) := by
  have ha : ((a.den : ℚ)) ≠ 0 := by exact_mod_cast a.den_nz
  nth_rewrite 1 [← Rat.num_div_den a]
  exact div_mul_cancel₀ _ ha

theorem qadd_eq (a b : ℚ) : qadd a b = a + b := by
  have ha : ((a.den : ℚ)) ≠ 0 := by exact_mod_cast a.den_nz
  have hb : ((b.den : ℚ)) ≠ 0 := by exact_mod_cast b.den_nz
  rw [qadd, Rat.mkRat_eq_div]
  push_cast
  rw [div_eq_iff (mul_ne_zero ha hb), ← mul_den_eq_num a, ← mul_den_eq_num b]
  ring

theorem qsub_eq (a b : ℚ) : qsub a b = a - b := by
  have ha : ((a.den : ℚ)) ≠ 0 := by exact_mod_cast a.den_nz
  have hb : ((b.den : ℚ)) ≠ 0 := by exact_mod_cast b.den_nz
  rw [qsub, Rat.mkRat_eq_div]
  push_cast
  rw [div_eq_iff (mul_ne_zero ha hb), ← mul_den_eq_num a, ← mul_den_eq_num b]
  ring

theorem qmul_eq (a b : ℚ) : qmul a b = a * b := by
  have ha : ((a.den : ℚ)) ≠ 0 := by exact_mod_cast a.den_nz
  have hb : ((b.den : ℚ)) ≠ 0 := by exact_mod_cast b.den_nz
  rw [qmul, Rat.mkRat_eq_div]
  push_cast
  rw [div_eq_iff (mul_ne_zero ha hb), ← mul_den_eq_num a, ← mul_den_eq_num b]
  ring

theorem qdiv_eq (a b : ℚ) : qdiv a b = a / b := by
  by_cases hb : b = 0
  · subst hb
    rw [qdiv]
    simp
  · have ha : ((a.den : ℚ)) ≠ 0 := by exact_mod_cast a.den_nz
    have hbq : ((b.den : ℚ)) ≠ 0 := by exact_mod_cast b.den_nz
    have hbn : ((b.num : ℚ)) ≠ 0 := by exact_mod_cast Rat.num_ne_zero.mpr hb
    rw [qdiv, Rat.divInt_eq_div]
    push_cast
    rw [div_eq_div_iff (mul_ne_zero ha hbn) hb, ← mul_den_eq_num a, ← mul_den_eq_num b]
    ring

/-- JS `Math.round` (round half toward +∞) on an exact rational. -/
def jsRound (q : ℚ) : ℤ := Rat.floor (qadd q (mkRat 1 2))

/-! ## Text model and JS string primitives -/

/-- A JS string, as a list of characters. -/
abbrev Text := List Char

/-- JS whitespace (`\s`, `trim`) restricted to the characters that occur in
this pipeline: space, tab, newline, carriage return. -/
def jsWs (c : Char) : Bool := c = ' ' || c = '\t' || c = '\n' || c = '\r'

/-- JS `String.prototype.trim`. -/
def jsTrim (t : Text) : Text :=
  ((t.dropWhile jsWs).reverse.dropWhile jsWs).reverse

/-- Number of non-whitespace characters of a string (used for content
accounting; not part of the source, a proof-side measure). -/
def countNW (t : Text) : Nat := (t.filter (fun c => !jsWs c)).length

/-- JS `array.join(' ')`. -/
def joinSp : List Text → Text
  | [] => []
  | [t] => t
  | t :: ts => t ++ ' ' :: joinSp ts

/-- Total character count of a page (sum of its paragraph lengths). -/
def pageSum (p : List Text) : Nat := (p.map List.length).sum

/-! ## isPageNumber — pdfProcessor.ts lines 57-61

`/^\d{1,4}$/ || /^[-–—]\s*\d{1,4}\s*[-–—]$/ || /^page\s+\d+/i || /^\d{1,4}\s*of\s*\d{1,4}$/i`
on the trimmed string.  Each regex is embedded by the equivalent
maximal-munch scan (the greedy quantifiers of these patterns admit no
backtracking alternatives, since the character classes involved are
disjoint). -/

/-- The dash characters of the second page-number pattern. -/
def isDashChar (c : Char) : Bool := c = '-' || c = '–' || c = '—'

/-- `^\d{1,4}$` : one to four digits and nothing else. -/
def reDigits14 (t : Text) : Bool :=
  !t.isEmpty && t.all Char.isDigit && t.length ≤ 4

/-- `^[-–—]\s*\d{1,4}\s*[-–—]$`. -/
def reDashNum (t : Text) : Bool :=
  match t with
  | [] => false
  | c :: rest =>
    isDashChar c &&
    (let r1 := rest.dropWhile jsWs
     let ds := r1.takeWhile Char.isDigit
     let r2 := r1.dropWhile Char.isDigit
     let r3 := r2.dropWhile jsWs
     !ds.isEmpty && ds.length ≤ 4 &&
     (match r3 with
      | [d] => isDashChar d
      | _ => false))

/-- Case-insensitive literal prefix match: strips `pat` (given lowercase)
from the front of `t`, comparing lowercased characters. -/
def stripCI : List Char → Text → Option Text
  | [], t => some t
  | _ :: _, [] => none
  | p :: ps, c :: cs => if c.toLower = p then stripCI ps cs else none

/-- `\s+` followed by the rest: requires at least one whitespace char and
returns the text after the whitespace run. -/
def afterWsPlus (t : Text) : Option Text :=
  match t with
  | [] => none
  | c :: _ => if jsWs c then some (t.dropWhile jsWs) else none

/-- `^page\s+\d+/i` (prefix match; no end anchor). -/
def rePageN (t : Text) : Bool :=
  match stripCI ('p' :: 'a' :: 'g' :: 'e' :: []) t with
  | none => false
  | some r =>
    match afterWsPlus r with
    | none => false
    | some r2 =>
      match r2 with
      | [] => false
      | c :: _ => c.isDigit

/-- `^\d{1,4}\s*of\s*\d{1,4}$/i`. -/
def reNofM (t : Text) : Bool :=
  let d1 := t.takeWhile Char.isDigit
  let r1 := (t.dropWhile Char.isDigit).dropWhile jsWs
  !d1.isEmpty && d1.length ≤ 4 &&
  (match stripCI ('o' :: 'f' :: []) r1 with
   | none => false
   | some r2 =>
     let r3 := r2.dropWhile jsWs
     !r3.isEmpty && r3.all Char.isDigit && r3.length ≤ 4)

/-- pdfProcessor.ts lines 57-61: `isPageNumber`. -/
def isPageNumber (text : Text) : Bool :=
  let trimmed := jsTrim text
  reDigits14 trimmed || reDashNum trimmed || rePageN trimmed || reNofM trimmed

/-! ## detectChapterTitle — pdfProcessor.ts lines 383-404

Seventeen regular-expression patterns tested against the trimmed text;
the function returns true iff some pattern matches.  There is no length
check anywhere in the source function. -/

/-- `[ivxlcdm]` lowercase roman-numeral letter. -/
def isRomanLower (c : Char) : Bool :=
  c = 'i' || c = 'v' || c = 'x' || c = 'l' || c = 'c' || c = 'd' || c = 'm'

/-- `[IVXLCDM]` uppercase roman-numeral letter. -/
def isRomanUpper (c : Char) : Bool :=
  c = 'I' || c = 'V' || c = 'X' || c = 'L' || c = 'C' || c = 'D' || c = 'M'

/-- `^word\s+\d` (case-insensitive): used for the `chapter/part/section/book N`
patterns; the trailing `\d+` of the regex needs only one digit to match since
the pattern has no end anchor. -/
def reWordNum (w : List Char) (t : Text) : Bool :=
  match stripCI w t with
  | none => false
  | some r =>
    match afterWsPlus r with
    | none => false
    | some r2 =>
      match r2 with
      | [] => false
      | c :: _ => c.isDigit

/-- `^word\s+[ivxlcdm]` (case-insensitive), for the roman-numeral variants. -/
def reWordRoman (w : List Char) (t : Text) : Bool :=
  match stripCI w t with
  | none => false
  | some r =>
    match afterWsPlus r with
    | none => false
    | some r2 =>
      match r2 with
      | [] => false
      | c :: _ => isRomanLower c.toLower

/-- `^WORD\s+` case-sensitive uppercase, for `/^CHAPTER\s+/` and `/^PART\s+/`. -/
def reUpperWordWs (w : List Char) (t : Text) : Bool :=
  match t with
  | [] => false
  | _ =>
    let n := w.length
    (t.take n = w) &&
    (match afterWsPlus (t.drop n) with
     | none => false
     | some _ => true)

/-- `^\d+\.\s+[A-Z]`. -/
def reNumDotTitle (t : Text) : Bool :=
  let ds := t.takeWhile Char.isDigit
  let r := t.dropWhile Char.isDigit
  !ds.isEmpty &&
  (match r with
   | '.' :: r2 =>
     (match afterWsPlus r2 with
      | none => false
      | some r3 =>
        match r3 with
        | [] => false
        | c :: _ => c.isUpper)
   | _ => false)

/-- `^[IVXLCDM]+\.\s+`. -/
def reRomanDot (t : Text) : Bool :=
  let rs := t.takeWhile isRomanUpper
  let r := t.dropWhile isRomanUpper
  !rs.isEmpty &&
  (match r with
   | '.' :: r2 =>
     (match afterWsPlus r2 with
      | none => false
      | some _ => true)
   | _ => false)

/-- `^word$/i`: the whole (trimmed) text equals the word, case-insensitively. -/
def reExactCI (w : List Char) (t : Text) : Bool :=
  t.map Char.toLower = w

/-- `^appendix/i`: case-insensitive prefix. -/
def reAppendix (t : Text) : Bool :=
  match stripCI ('a' :: 'p' :: 'p' :: 'e' :: 'n' :: 'd' :: 'i' :: 'x' :: []) t with
  | none => false
  | some _ => true

/-- pdfProcessor.ts lines 383-404: `detectChapterTitle`. -/
def detectChapterTitle (text : Text) : Bool :=
  let s := jsTrim text
  reWordNum ('c' :: 'h' :: 'a' :: 'p' :: 't' :: 'e' :: 'r' :: []) s ||
  reWordRoman ('c' :: 'h' :: 'a' :: 'p' :: 't' :: 'e' :: 'r' :: []) s ||
  reWordNum ('p' :: 'a' :: 'r' :: 't' :: []) s ||
  reWordRoman ('p' :: 'a' :: 'r' :: 't' :: []) s ||
  reWordNum ('s' :: 'e' :: 'c' :: 't' :: 'i' :: 'o' :: 'n' :: []) s ||
  reWordNum ('b' :: 'o' :: 'o' :: 'k' :: []) s ||
  reUpperWordWs ('C' :: 'H' :: 'A' :: 'P' :: 'T' :: 'E' :: 'R' :: []) s ||
  reUpperWordWs ('P' :: 'A' :: 'R' :: 'T' :: []) s ||
  reNumDotTitle s ||
  reRomanDot s ||
  reExactCI ('p' :: 'r' :: 'o' :: 'l' :: 'o' :: 'g' :: 'u' :: 'e' :: []) s ||
  reExactCI ('e' :: 'p' :: 'i' :: 'l' :: 'o' :: 'g' :: 'u' :: 'e' :: []) s ||
  reExactCI ('i' :: 'n' :: 't' :: 'r' :: 'o' :: 'd' :: 'u' :: 'c' :: 't' :: 'i' :: 'o' :: 'n' :: []) s ||
  reExactCI ('p' :: 'r' :: 'e' :: 'f' :: 'a' :: 'c' :: 'e' :: []) s ||
  reExactCI ('f' :: 'o' :: 'r' :: 'e' :: 'w' :: 'o' :: 'r' :: 'd' :: []) s ||
  reAppendix s ||
  reExactCI ('c' :: 'o' :: 'n' :: 'c' :: 'l' :: 'u' :: 's' :: 'i' :: 'o' :: 'n' :: []) s

/-! ## Hyphenation rejoin — pdfProcessor.ts lines 134-155

The rejoin stage of `itemsToLines`: for each line ending in `-` with a
successor, drop the hyphen, append the next line's first
whitespace-delimited token, and either replace the next line by its
remainder or (if fully consumed) skip it. -/

/-- JS `string.split(/\s+/)`.  The `Bool` flag records whether the scanner
is inside a whitespace run (so that a leading or trailing run produces an
empty token, as in JS). -/
def splitWsGo : Bool → Text → Text → List Text
  | false, cur, [] => [cur.reverse]
  | true, _, [] => [[]]
  | false, cur, c :: cs =>
    if jsWs c then cur.reverse :: splitWsGo true [] cs
    else splitWsGo false (c :: cur) cs
  | true, _, c :: cs =>
    if jsWs c then splitWsGo true [] cs
    else splitWsGo false [c] cs

/-- JS `string.split(/\s+/)`. -/
def splitWs (t : Text) : List Text := splitWsGo false [] t

/-- The rejoin loop body, with fuel equal to the number of remaining lines
(structural recursion; the fuel is always sufficient because every step
consumes at least one line). -/
def rejoinGo : Nat → List Text → List Text
  | 0, ls => ls
  | _ + 1, [] => []
  | fuel + 1, line :: rest =>
    if line.getLast? = some '-' && !rest.isEmpty then
      match rest with
      | [] => [line]
      | nextLine :: rest2 =>
        let nextWords := splitWs nextLine
        let firstWord := nextWords.headD []
        let remWords := nextWords.tail
        let joined := line.dropLast ++ firstWord
        if remWords.isEmpty then
          joined :: rejoinGo fuel rest2
        else
          joined :: rejoinGo fuel (joinSp remWords :: rest2)
    else
      line :: rejoinGo fuel rest

/-- pdfProcessor.ts lines 134-155: the hyphenation-rejoin stage of
`itemsToLines`, as a transformation on the built line list. -/
def rejoinHyphens (lines : List Text) : List Text :=
  rejoinGo lines.length lines

/-! ## Column detection — pdfProcessor.ts lines 64-96 -/

/-- One positioned text fragment (pdfProcessor.ts lines 27-34). -/
structure TextItem where
  str : Text
  x : ℚ
  y : ℚ
  width : ℚ
  height : ℚ
  fontName : Text
deriving DecidableEq

/-- `Math.round(i.x / 10) * 10` — the coarse 10px x-grid of `detectColumns`. -/
def roundTo10 (q : ℚ) : ℚ := mkRat (10 * jsRound (qdiv q 10)) 1

/-- `COLUMN_GAP_THRESHOLD` (pdfProcessor.ts line 19). -/
def COLUMN_GAP_THRESHOLD : ℚ := 100

/-- The dominant rounded x-positions: rounded x-values occurring at least 3
times, in ascending order.  The source builds them in `Map` insertion order
and then sorts numerically ascending; since the values are pairwise distinct
the sorted result does not depend on the pre-sort order, so the embedding
deduplicates with `List.dedup` and sorts. -/
def dominantXs (items : List TextItem) : List ℚ :=
  let xStarts := items.map (fun i => roundTo10 i.x)
  ((xStarts.dedup.filter (fun x => 3 ≤ xStarts.count x)).insertionSort (· ≤ ·))

/-- Differences between consecutive dominant x-positions
(`gaps[i-1] = dominantXs[i] - dominantXs[i-1]`). -/
def colGaps (items : List TextItem) : List ℚ :=
  List.zipWith qsub (dominantXs items).tail (dominantXs items)

/-- The sort order used for each detected column:
`(a, b) => b.y - a.y || a.x - b.x`, i.e. descending y (top of page first,
since PDF y grows upward), ties broken by ascending x. -/
def colOrd (a b : TextItem) : Prop := b.y < a.y ∨ (a.y = b.y ∧ a.x ≤ b.x)

instance : DecidableRel colOrd := fun a b => by
  unfold colOrd
  infer_instance

instance : IsTotal TextItem colOrd := by
  constructor
  intro a b
  rcases lt_trichotomy a.y b.y with h | h | h
  · right; left; exact h
  · rcases le_total a.x b.x with h2 | h2
    · left; right; exact ⟨h, h2⟩
    · right; right; exact ⟨h.symm, h2⟩
  · left; left; exact h

instance : IsTrans TextItem colOrd := by
  constructor
  intro a b c hab hbc
  rcases hab with h1 | ⟨h1, h1x⟩ <;> rcases hbc with h2 | ⟨h2, h2x⟩
  · left; exact lt_trans h2 h1
  · left; exact h2 ▸ h1
  · left; exact h1 ▸ h2
  · right; exact ⟨h1.trans h2, le_trans h1x h2x⟩

/-- The column split point: `midX = dominantXs[0] + gaps[0] / 2` — the
midpoint between the first two dominant x-positions. -/
def splitMidX (items : List TextItem) : ℚ :=
  qadd ((dominantXs items).headD 0) (qdiv ((colGaps items).headD 0) 2)

/-- pdfProcessor.ts lines 64-96: `detectColumns`.  The JS `Array.sort`
(stable since ES2019) is modelled by the stable `List.insertionSort`. -/
def detectColumns (items : List TextItem) : List (List TextItem) :=
  if items.length < 4 then [items]
  else
    let dXs := dominantXs items
    if 2 ≤ dXs.length then
      if (colGaps items).any (fun g => COLUMN_GAP_THRESHOLD < g) then
        let midX := splitMidX items
        [(items.filter (fun i => i.x < midX)).insertionSort colOrd,
         (items.filter (fun i => midX ≤ i.x)).insertionSort colOrd]
      else [items]
    else [items]

/-! ## Header/footer detection — pdfProcessor.ts lines 158-196 -/

/-- `HEADER_FOOTER_MARGIN` (pdfProcessor.ts line 17): 0.08 = 2/25 exactly
(the IEEE double 0.08 differs from 2/25 by less than one part in 10^16 and
no comparison in the claims sits at that boundary). -/
def HEADER_FOOTER_MARGIN : ℚ := mkRat 2 25

/-- Digit runs replaced by a single `#` (JS `replace(/\d+/g, '#')`).  The
`Bool` flag records whether the previous character was a digit. -/
def squashDigitsGo : Bool → Text → Text
  | _, [] => []
  | prevD, c :: cs =>
    if c.isDigit then
      if prevD then squashDigitsGo true cs
      else '#' :: squashDigitsGo true cs
    else c :: squashDigitsGo false cs

/-- pdfProcessor.ts lines 172-173: `normalizeForMatch`
(`text.replace(/\d+/g, '#').trim().toLowerCase()`). -/
def normalizeForMatch (t : Text) : Text :=
  (jsTrim (squashDigitsGo false t)).map Char.toLower

/-- The mutable state of a `HeaderFooterDetector` instance.  The JS `Map`s
are modelled as association lists in insertion order. -/
structure DetState where
  topTexts : List (Text × Nat)
  bottomTexts : List (Text × Nat)
  pageCount : Nat
deriving DecidableEq

/-- The empty detector. -/
def initDetector : DetState := ⟨[], [], 0⟩

/-- `map.set(k, (map.get(k) || 0) + 1)` on the association-list model. -/
def tally (m : List (Text × Nat)) (k : Text) : List (Text × Nat) :=
  if m.any (fun e => e.1 = k) then
    m.map (fun e => if e.1 = k then (e.1, e.2 + 1) else e)
  else m ++ [(k, 1)]

/-- pdfProcessor.ts lines 164-183: `HeaderFooterDetector.addPage`. -/
def addPage (st : DetState) (items : List TextItem) (pageHeight : ℚ) : DetState :=
  let st1 : DetState := { st with pageCount := st.pageCount + 1 }
  if pageHeight ≤ 0 then st1
  else
    let topZone := items.filter (fun i => qsub 1 HEADER_FOOTER_MARGIN < qdiv i.y pageHeight)
    let bottomZone := items.filter (fun i => qdiv i.y pageHeight < HEADER_FOOTER_MARGIN)
    let st2 : DetState :=
      if topZone.isEmpty then st1
      else
        let t := normalizeForMatch (joinSp (topZone.map TextItem.str))
        if 2 < t.length then { st1 with topTexts := tally st1.topTexts t } else st1
    if bottomZone.isEmpty then st2
    else
      let t := normalizeForMatch (joinSp (bottomZone.map TextItem.str))
      if 2 < t.length then { st2 with bottomTexts := tally st2.bottomTexts t } else st2

/-- pdfProcessor.ts lines 185-195: `HeaderFooterDetector.getRepeatingPatterns`.
The returned JS `Set` is modelled as the list of qualifying normalized
strings (membership is what all callers use). -/
def getRepeatingPatterns (st : DetState) : List Text :=
  let threshold : ℚ := max 2 (qmul (st.pageCount : ℚ) (mkRat 3 10))
  ((st.topTexts.filter (fun e => threshold ≤ (e.2 : ℚ))).map Prod.fst) ++
  ((st.bottomTexts.filter (fun e => threshold ≤ (e.2 : ℚ))).map Prod.fst)

/-! ## Pagination — pdfProcessor.ts lines 249-377 -/

/-- `MAX_CHARS_PER_PAGE` (pdfProcessor.ts line 13). -/
def MAX_CHARS_PER_PAGE : Nat := 800

/-- `MIN_WIDOW_CHARS` (line 15). -/
def MIN_WIDOW_CHARS : Nat := 80

/-- `MIN_ORPHAN_CHARS` (line 16). -/
def MIN_ORPHAN_CHARS : Nat := 80

/-- A page: an ordered list of paragraph strings. -/
abbrev Page := List Text

/-- `[.!?]` sentence-ending punctuation. -/
def isPunctChar (c : Char) : Bool := c = '.' || c = '!' || c = '?'

/-- The optional quote after the punctuation in `/[.!?]["']?\s+/`
(the source's character class contains only the ASCII double quote and
apostrophe). -/
def isQuoteChar (c : Char) : Bool := c = '"' || c = '\''

/-- All matches of `/[.!?]["']?\s+/g` as (start index, length) pairs in
ascending start order.  The source uses `matchAll`, whose non-overlapping
scan is equivalent to the every-position scan used here because no
character inside a match (a quote or whitespace character) can start
another match, which must begin with `[.!?]`. -/
def sentMatchGo : Text → Nat → List (Nat × Nat)
  | [], _ => []
  | c :: cs, i =>
    let rest := sentMatchGo cs (i + 1)
    if isPunctChar c then
      match cs with
      | [] => rest
      | q :: cs2 =>
        if isQuoteChar q then
          let w := cs2.takeWhile jsWs
          if w.isEmpty then rest else (i, 2 + w.length) :: rest
        else if jsWs q then
          (i, 1 + (cs.takeWhile jsWs).length) :: rest
        else rest
    else rest

/-- The index of the last `' '` at position ≤ m (JS
`text.lastIndexOf(' ', m)`); `none` for the JS result `-1`. -/
def lastSpaceIdx (t : Text) (m : Nat) : Option Nat :=
  let pre := t.take (m + 1)
  match pre.reverse.findIdx? (fun c => c = ' ') with
  | some j => some (pre.length - 1 - j)
  | none => none

/-- pdfProcessor.ts lines 249-268: `splitAtSentenceBoundary`.
The JS loop scans `sentenceEnds` from the last match down and returns the
first whose end is ≤ maxChars; the guard `lastSpace > maxChars * 0.3`
(an integer against the double `0.3 * m`) is the exact comparison
`10 * lastSpace > 3 * m` at every reachable operand. -/
def splitAtSentenceBoundary (text : Text) (maxChars : Nat) : Text × Text :=
  let sub := text.take (maxChars + 50)
  let sentenceEnds := sentMatchGo sub 0
  match sentenceEnds.reverse.find? (fun p => p.1 + p.2 ≤ maxChars) with
  | some p =>
    (jsTrim (text.take (p.1 + p.2)), jsTrim (text.drop (p.1 + p.2)))
  | none =>
    match lastSpaceIdx text maxChars with
    | some ls =>
      if 3 * maxChars < 10 * ls then (jsTrim (text.take ls), jsTrim (text.drop ls))
      else (jsTrim (text.take maxChars), jsTrim (text.drop maxChars))
    | none => (jsTrim (text.take maxChars), jsTrim (text.drop maxChars))

/-- The state threaded through `segmentIntoPages`: finished pages, the
current page, and `currentCharCount`. -/
abbrev SegState := List Page × Page × Nat

/-- The `while (remaining.length > 0)` loop of `segmentIntoPages`
(pdfProcessor.ts lines 295-320), with explicit fuel; one fuel unit per
iteration.  `none` means the fuel ran out — which happens exactly on
inputs where the loop body makes no progress (see `c8_*`). -/
def splitLoop : Nat → List Page → Page → Nat → Text → Option SegState
  | 0, _, _, _, _ => none
  | fuel + 1, pages, page, cnt, remaining =>
    if remaining.length = 0 then some (pages, page, cnt)
    else
      let available : ℤ := (MAX_CHARS_PER_PAGE : ℤ) - (cnt : ℤ)
      if (remaining.length : ℤ) ≤ available then
        splitLoop fuel pages (page ++ [remaining]) (cnt + remaining.length) []
      else if (MIN_ORPHAN_CHARS : ℤ) < available then
        let cr := splitAtSentenceBoundary remaining available.toNat
        if 0 < cr.1.length then
          splitLoop fuel (pages ++ [page ++ [cr.1]]) [] 0 cr.2
        else
          if page.isEmpty then splitLoop fuel pages page cnt remaining
          else splitLoop fuel (pages ++ [page]) [] 0 remaining
      else
        let pages1 := if page.isEmpty then pages else pages ++ [page]
        let cr := splitAtSentenceBoundary remaining MAX_CHARS_PER_PAGE
        splitLoop fuel (pages1 ++ [[cr.1]]) [] 0 cr.2

/-- The `for (pi …)` loop of `segmentIntoPages` (pdfProcessor.ts lines
285-325).  The oversized-paragraph loop is given `para.length + 3` fuel,
which suffices for every terminating run (each productive iteration
strictly shortens `remaining`, plus one final empty-check iteration and at
most one unproductive flush in a row). -/
def segLoop : List Text → List Page → Page → Nat → Option SegState
  | [], pages, page, cnt => some (pages, page, cnt)
  | para :: ps, pages, page, cnt =>
    let flushed : SegState :=
      if !page.isEmpty ∧ MAX_CHARS_PER_PAGE < cnt + para.length
      then (pages ++ [page], [], 0) else (pages, page, cnt)
    if MAX_CHARS_PER_PAGE < para.length then
      match splitLoop (para.length + 3) flushed.1 flushed.2.1 flushed.2.2 para with
      | none => none
      | some (pages2, page2, cnt2) => segLoop ps pages2 page2 cnt2
    else
      segLoop ps flushed.1 (flushed.2.1 ++ [para]) (flushed.2.2 + para.length)

/-- A page is non-blank if some paragraph trims to a nonempty string
(`p.some(t => t.trim().length > 0)`). -/
def pageNonBlank (p : Page) : Bool := p.any (fun t => !(jsTrim t).isEmpty)

/-- The widow/orphan loop of `applyWidowOrphanFix` (pdfProcessor.ts lines
342-373).  `acc` holds the pages before the loop index in reverse order
(head = the page at `i - 1`), so that the in-place mutations of the JS
loop become head operations; `rest` holds the pages from the loop index
on.  The integer guards `< 920` and `≤ 880` are the exact forms of the
double comparisons `< 800*1.15 = 919.9999999999999` and
`< 800*1.1 = 880.0000000000001` on integer character counts. -/
def wofGo : List Page → List Page → List Page
  | acc, [] => acc.reverse
  | [], cur :: rest => wofGo [cur] rest
  | prev :: accT, cur :: rest =>
    if rest.isEmpty ∧ (joinSp cur).length < MIN_WIDOW_CHARS ∧
       (joinSp prev).length + (joinSp cur).length < 920 then
      ((prev ++ cur) :: accT).reverse
    else
      match cur with
      | [] => wofGo ([] :: prev :: accT) rest
      | f :: curT =>
        if f.length < MIN_ORPHAN_CHARS ∧ detectChapterTitle f = false ∧
           (joinSp prev).length + f.length ≤ 880 then
          if curT.isEmpty then wofGo ((prev ++ [f]) :: accT) rest
          else wofGo (curT :: (prev ++ [f]) :: accT) rest
        else wofGo ((f :: curT) :: prev :: accT) rest

/-- pdfProcessor.ts lines 339-377: `applyWidowOrphanFix`. -/
def applyWidowOrphanFix (pages : List Page) : List Page :=
  (wofGo [] pages).filter (fun p => !p.isEmpty && pageNonBlank p)

/-- pdfProcessor.ts lines 270-336: `segmentIntoPages`.  Returns `none` iff
the oversized-paragraph loop fails to make progress (the source then loops
forever). -/
def segmentIntoPages (paragraphs : List Text) : Option (List Page) :=
  if paragraphs.isEmpty then some [[[]]]
  else
    match segLoop paragraphs [] [] 0 with
    | none => none
    | some (pages0, page, _) =>
      let pages := if page.isEmpty then pages0 else pages0 ++ [page]
      some (if 1 < pages.length then applyWidowOrphanFix pages else pages)

/-! ## Chapter building — pdfProcessor.ts lines 406-440 -/

/-- A chapter record (`Chapter` of recoilAtoms.ts, the fields used by the
processor). -/
structure ChapterL where
  title : Text
  paragraphs : List Text
  pages : List Page
deriving DecidableEq

/-- The synthetic first-chapter title `'Beginning'`. -/
def beginningTitle : Text := 'B' :: 'e' :: 'g' :: 'i' :: 'n' :: 'n' :: 'i' :: 'n' :: 'g' :: []

/-- The placeholder chapter emitted when nothing survives
(pdfProcessor.ts lines 431-437). -/
def placeholderChapter : ChapterL :=
  { title := 'D' :: 'o' :: 'c' :: 'u' :: 'm' :: 'e' :: 'n' :: 't' :: []
    paragraphs := [('N' :: 'o' :: ' ' :: 'r' :: 'e' :: 'a' :: 'd' :: 'a' :: 'b' :: 'l' :: 'e' :: ' ' :: 'c' :: 'o' :: 'n' :: 't' :: 'e' :: 'n' :: 't' :: ' ' :: 'f' :: 'o' :: 'u' :: 'n' :: 'd' :: '.' :: [])]
    pages := [[('N' :: 'o' :: ' ' :: 'r' :: 'e' :: 'a' :: 'd' :: 'a' :: 'b' :: 'l' :: 'e' :: ' ' :: 'c' :: 'o' :: 'n' :: 't' :: 'e' :: 'n' :: 't' :: ' ' :: 'f' :: 'o' :: 'u' :: 'n' :: 'd' :: '.' :: [])]] }

/-- The `for (const para of paragraphs)` loop of `buildChapters`. -/
def buildGo : List Text → Text → List Text → List ChapterL → Option (List ChapterL)
  | [], title, curParas, acc =>
    if curParas.isEmpty then some acc
    else
      match segmentIntoPages curParas with
      | none => none
      | some pages => some (acc ++ [⟨title, curParas, pages⟩])
  | para :: ps, title, curParas, acc =>
    if detectChapterTitle para then
      if curParas.isEmpty then buildGo ps (para.take 80) [] acc
      else
        match segmentIntoPages curParas with
        | none => none
        | some pages => buildGo ps (para.take 80) [] (acc ++ [⟨title, curParas, pages⟩])
    else
      buildGo ps title (curParas ++ [para]) acc

/-- pdfProcessor.ts lines 406-440: `buildChapters`. -/
def buildChapters (paragraphs : List Text) : Option (List ChapterL) :=
  match buildGo paragraphs beginningTitle [] [] with
  | none => none
  | some chapters =>
    some (if chapters.isEmpty then [placeholderChapter] else chapters)

/-! ## OCR fallback — pdfProcessor.ts lines 449-524 and the worker pool
(`OCRWorkerPool.recognize`, ocrWorkerPool module lines 65-90).

The external effects (canvas rendering, tesseract jobs) are modelled by
`Except` outcomes supplied as parameters; pool lifecycle actions are
recorded in an event trace. -/

/-- `TEXT_THRESHOLD` (pdfProcessor.ts line 20). -/
def TEXT_THRESHOLD : Nat := 50

/-- Observable worker-pool actions. -/
inductive PoolEvent where
  | submitJob
  | teardown
  | reinit
deriving DecidableEq

/-- The characters of the string `'terminated'`. -/
def terminatedChars : Text :=
  't' :: 'e' :: 'r' :: 'm' :: 'i' :: 'n' :: 'a' :: 't' :: 'e' :: 'd' :: []

/-- `OCRWorkerPool.recognize` (ocrWorkerPool lines 65-90): submit the job;
on an error whose message contains `'terminated'`, tear the pool down,
reinitialize it and retry exactly once (the retry's outcome — success or
error — is returned unguarded); any other error propagates.  `o1`/`o2` are
the outcomes of the first and second `scheduler.addJob` calls; the second
component is the trace of pool actions performed. -/
instance : ∀ (l₁ l₂ : Text), Decidable (l₁.IsInfix l₂) := fun l₁ l₂ =>
  List.decidableInfix l₁ l₂

def recognizePool (o1 o2 : Except Text Text) : Except Text Text × List PoolEvent :=
  match o1 with
  | .ok t => (.ok t, [.submitJob])
  | .error e =>
    if terminatedChars.IsInfix e then
      (o2, [.submitJob, .teardown, .reinit, .submitJob])
    else
      (.error e, [.submitJob])

/-- A PDF page as seen by `extractTextFromPage`: the `str` fields of its
text-content items, and the outcome of `performOCR` on it (rendering,
preprocessing and recognition are external; a thrown error is `.error`). -/
structure PageModel where
  items : List Text
  ocr : Except Text Text

/-- pdfProcessor.ts lines 449-477: `extractTextFromPage`.  Text-layer text
is `items.map(i => i.str).join(' ').trim()`; if it exceeds
`TEXT_THRESHOLD` it is returned, otherwise the OCR outcome is awaited and
any exception is swallowed, yielding the empty string. -/
def extractTextFromPage (pg : PageModel) : Text :=
  let text := jsTrim (joinSp pg.items)
  if TEXT_THRESHOLD < text.length then text
  else
    match pg.ocr with
    | .ok t => t
    | .error _ => []

/-! ## Supporting lemmas -/

theorem dropWhileLenLe (p : Char → Bool) (l : Text) :
    (l.dropWhile p).length ≤ l.length := by
  induction l with
  | nil => simp
  | cons c cs ih =>
    rw [List.dropWhile_cons]
    split
    · exact le_trans ih (by simp)
    · simp

theorem jsTrimLenLe (t : Text) : (jsTrim t).length ≤ t.length := by
  rw [jsTrim]
  calc ((t.dropWhile jsWs).reverse.dropWhile jsWs).reverse.length
      = ((t.dropWhile jsWs).reverse.dropWhile jsWs).length := by
        rw [List.length_reverse]
    _ ≤ (t.dropWhile jsWs).reverse.length := dropWhileLenLe _ _
    _ = (t.dropWhile jsWs).length := by rw [List.length_reverse]
    _ ≤ t.length := dropWhileLenLe _ _

theorem dropWhileConsFalse {p : Char → Bool} {c : Char} {l : Text}
    (h : p c = false) : List.dropWhile p (c :: l) = c :: l := by
  rw [List.dropWhile_cons, h]
  simp

/-- A string whose first and last characters are not whitespace is its own
trim. -/
theorem jsTrimEqSelf (t : Text)
    (hh : ∀ c, t.head? = some c → jsWs c = false)
    (hl : ∀ c, t.getLast? = some c → jsWs c = false) : jsTrim t = t := by
  match t with
  | [] => rfl
  | c :: cs =>
    rw [jsTrim, dropWhileConsFalse (hh c rfl)]
    match hr : (c :: cs).reverse with
    | [] => exact absurd hr (by simp)
    | d :: ds =>
      have hd2 : jsWs d = false := by
        apply hl
        rw [List.getLast?_eq_head?_reverse, hr]
        rfl
      rw [dropWhileConsFalse hd2, ← hr, List.reverse_reverse]

/-! ## Claim C3 — hyphenation rejoin of ["exam-", "ple text"] and
["exam-", "ple"] -/

/-- C3 (counterexample): the claim says `["exam-", "ple text"]` rejoins to
the single line `"example text"`.  In fact the source keeps the remainder
`"text"` of the consumed next line as a line of its own, so the output is
the two lines `["example", "text"]`. -/
theorem c3_counterexample :
    rejoinHyphens ["exam-".data, "ple text".data] = ["example".data, "text".data] ∧
    rejoinHyphens ["exam-".data, "ple text".data] ≠ ["example text".data] := by
  constructor
  · decide
  · decide

/-- C3 (amended): `["exam-", "ple text"]` rejoins the hyphenated word and
keeps the remainder of the next line as a separate line, giving
`["example", "text"]`; `["exam-", "ple"]` (next line fully consumed)
rejoins to the single line `["example"]` and drops the second line. -/
theorem c3_rejoin_keeps_remainder :
    rejoinHyphens ["exam-".data, "ple text".data] = ["example".data, "text".data] ∧
    rejoinHyphens ["exam-".data, "ple".data] = ["example".data] := by
  constructor
  · decide
  · decide

/-! ## Claim C5 — no length ceiling in detectChapterTitle -/

/-- A body paragraph starting `"Chapter 1 "` padded with `n` letters. -/
def c5Para (n : Nat) : Text :=
  ('C' :: 'h' :: 'a' :: 'p' :: 't' :: 'e' :: 'r' :: ' ' :: '1' :: ' ' :: []) ++
    List.replicate n 'a'

/-- C5 (counterexample): the claim says a long body paragraph beginning
`"Chapter 1 "` is never treated as a title because a length check precedes
the pattern match.  The source has no length check: this 510-character
paragraph is classified as a chapter title. -/
theorem c5_counterexample :
    (c5Para 500).length = 510 ∧ detectChapterTitle (c5Para 500) = true := by
  constructor
  · decide
  · decide

theorem c5ParaTrim (k : Nat) : jsTrim (c5Para (k + 1)) = c5Para (k + 1) := by
  apply jsTrimEqSelf
  · intro c hc
    rw [c5Para] at hc
    simp only [List.cons_append, List.head?_cons, Option.some.injEq] at hc
    subst hc
    rfl
  · intro c hc
    rw [c5Para] at hc
    rw [show ('C' :: 'h' :: 'a' :: 'p' :: 't' :: 'e' :: 'r' :: ' ' :: '1' :: ' ' :: []) ++
        List.replicate (k + 1) 'a' =
        (('C' :: 'h' :: 'a' :: 'p' :: 't' :: 'e' :: 'r' :: ' ' :: '1' :: ' ' :: []) ++
          List.replicate k 'a') ++ ['a'] from by
      rw [List.replicate_succ', List.append_assoc]] at hc
    rw [List.getLast?_concat] at hc
    cases hc
    rfl

/-- C5 (amended): `detectChapterTitle` applies no length ceiling: for every
padding length `n`, the paragraph `"Chapter 1 " ++ n letters` matches the
`/^chapter\s+\d+/i` pattern and is classified as a title.  (Hence no
ceiling as asserted by the claim can exist.) -/
theorem c5_no_length_ceiling (n : Nat) : detectChapterTitle (c5Para n) = true := by
  cases n with
  | zero => decide
  | succ k =>
    rw [detectChapterTitle, c5ParaTrim k]
    have h : reWordNum ('c' :: 'h' :: 'a' :: 'p' :: 't' :: 'e' :: 'r' :: []) (c5Para (k + 1)) = true := by
      rw [c5Para]
      rfl
    rw [h]
    simp

/-! ## Claim C6 — isPageNumber shapes -/

/-- C6 (counterexample): the claim says `isPageNumber` accepts bracketed
numbers such as `"[3]"`.  The source has no bracket pattern: it rejects
`"[3]"`. -/
theorem c6_counterexample : isPageNumber ("[3]".data) = false := by
  decide

/-- C6 (amended): `isPageNumber` returns true for every trimmed string of
one to four digits, and for the dash-flanked, `page N` and `N of M` shapes,
but returns false for bracketed numbers — no bracket pattern exists. -/
theorem c6_page_number_shapes (ds : Text) (htr : jsTrim ds = ds)
    (h1 : ds ≠ []) (h2 : ds.length ≤ 4) (h3 : ∀ c ∈ ds, c.isDigit = true) :
    isPageNumber ds = true ∧
    isPageNumber ("[3]".data) = false ∧
    isPageNumber ("[12]".data) = false ∧
    isPageNumber ("- 23 -".data) = true ∧
    isPageNumber ("– 7 —".data) = true ∧
    isPageNumber ("Page 4".data) = true ∧
    isPageNumber ("3 of 10".data) = true := by
  refine ⟨?_, by decide, by decide, by decide, by decide, by decide, by decide⟩
  have hre : reDigits14 ds = true := by
    rw [reDigits14]
    simp [List.isEmpty_iff, h1, h2, List.all_eq_true]
    exact h3
  rw [isPageNumber]
  simp only [htr, hre, Bool.true_or]

theorem c6_page_number_shapes_witness :
    (jsTrim ("42".data) = "42".data ∧ "42".data ≠ [] ∧ ("42".data).length ≤ 4 ∧
      ∀ c ∈ "42".data, c.isDigit = true) ∧
    (isPageNumber ("42".data) = true ∧
     isPageNumber ("[3]".data) = false ∧
     isPageNumber ("[12]".data) = false ∧
     isPageNumber ("- 23 -".data) = true ∧
     isPageNumber ("– 7 —".data) = true ∧
     isPageNumber ("Page 4".data) = true ∧
     isPageNumber ("3 of 10".data) = true) :=
  ⟨⟨by decide, by decide, by decide, by decide⟩,
   c6_page_number_shapes ("42".data) (by decide) (by decide) (by decide) (by decide)⟩

/-! ## Claim C10 — detectColumns is a 1- or 2-column partition -/

/-- C10 (confirmed): `detectColumns` returns one or two columns, and the
returned columns together are a permutation of the input fragment list —
every fragment lands in exactly one column, none dropped or duplicated. -/
theorem c10_columns_partition (items : List TextItem) :
    ((detectColumns items).length = 1 ∨ (detectColumns items).length = 2) ∧
    (detectColumns items).flatten.Perm items := by
  simp only [detectColumns]
  split_ifs with h1 h2 h3
  · exact ⟨Or.inl rfl, by simp⟩
  · refine ⟨Or.inr rfl, ?_⟩
    simp only [List.flatten_cons, List.flatten_nil, List.append_nil]
    refine ((List.perm_insertionSort colOrd _).append
      (List.perm_insertionSort colOrd _)).trans ?_
    have hfq : items.filter (fun i => decide (splitMidX items ≤ i.x)) =
        items.filter (fun i => !decide (i.x < splitMidX items)) := by
      refine List.filter_congr ?_
      intro i _
      calc decide (splitMidX items ≤ i.x)
          = decide (¬ i.x < splitMidX items) := decide_eq_decide.mpr not_lt.symm
        _ = !decide (i.x < splitMidX items) := decide_not
    rw [hfq]
    exact List.filter_append_perm _ items
  · exact ⟨Or.inl rfl, by simp⟩
  · exact ⟨Or.inl rfl, by simp⟩

/-! ## Claim C2 — where detectColumns splits -/

/-- A fragment at the given position (used for the C2 example layout). -/
def mkTI (px py : ℚ) : TextItem := ⟨['w'], px, py, 10, 12, []⟩

/-- Three dominant x-positions 0, 10, 200: two fragments-per-row columns at
x=0/x=10 and a genuinely separated cluster at x=200.  The largest gap
(190, between 10 and 200) exceeds the threshold, so the split triggers —
but the source splits at `dominantXs[0] + gaps[0]/2 = 5`, the midpoint of
the FIRST gap, not of the largest one (whose midpoint is 105). -/
def exC2 : List TextItem :=
  [mkTI 0 50, mkTI 10 50, mkTI 200 50,
   mkTI 0 40, mkTI 10 40, mkTI 200 40,
   mkTI 0 30, mkTI 10 30, mkTI 200 30]

/-- C2 (counterexample): on `exC2` the dominant x-positions are
`[0, 10, 200]` and the largest gap is 190 (midpoint 105), yet the second
(right) column contains the fragment at x = 10 < 105 — the input was NOT
partitioned at the midpoint of the largest gap, but at 5, the midpoint of
the first gap. -/
theorem c2_counterexample :
    dominantXs exC2 = [0, 10, 200] ∧
    colGaps exC2 = [10, 190] ∧
    splitMidX exC2 = 5 ∧
    mkTI 10 40 ∈ (detectColumns exC2).getD 1 [] ∧
    (mkTI 10 40).x < 105 := by
  refine ⟨by decide, by decide, by decide, by decide, ?_⟩
  show (10 : ℚ) < 105
  norm_num

/-- C2 (amended): when at least two dominant x-positions exist and some gap
between consecutive dominant positions exceeds the column-gap threshold,
`detectColumns` partitions the fragments at the midpoint of the FIRST gap
(the split x equals the average of the first two dominant x-values), sorts
each part top-to-bottom then left-to-right, and returns the left column
followed by the right column. -/
theorem c2_first_gap_split (items : List TextItem)
    (h4 : ¬ items.length < 4)
    (hd : 2 ≤ (dominantXs items).length)
    (hg : (colGaps items).any (fun g => COLUMN_GAP_THRESHOLD < g) = true) :
    ∃ d0 d1 ds L R,
      dominantXs items = d0 :: d1 :: ds ∧
      splitMidX items = (d0 + d1) / 2 ∧
      detectColumns items = [L, R] ∧
      L.Perm (items.filter (fun i => i.x < splitMidX items)) ∧
      R.Perm (items.filter (fun i => splitMidX items ≤ i.x)) ∧
      List.Sorted colOrd L ∧ List.Sorted colOrd R := by
  obtain ⟨d0, d1, ds, hdom⟩ : ∃ d0 d1 ds, dominantXs items = d0 :: d1 :: ds := by
    match hl : dominantXs items with
    | [] => rw [hl] at hd; simp at hd
    | [a] => rw [hl] at hd; simp at hd
    | a :: b :: t => exact ⟨a, b, t, rfl⟩
  refine ⟨d0, d1, ds,
    (items.filter (fun i => i.x < splitMidX items)).insertionSort colOrd,
    (items.filter (fun i => splitMidX items ≤ i.x)).insertionSort colOrd,
    hdom, ?_, ?_, List.perm_insertionSort _ _, List.perm_insertionSort _ _,
    List.sorted_insertionSort _ _, List.sorted_insertionSort _ _⟩
  · rw [splitMidX, colGaps, hdom]
    simp only [List.tail_cons, List.zipWith_cons_cons, List.headD_cons]
    rw [qadd_eq, qdiv_eq, qsub_eq]
    ring
  · simp only [detectColumns]
    rw [if_neg h4, if_pos hd, if_pos hg]

theorem c2_first_gap_split_witness :
    (¬ exC2.length < 4 ∧ 2 ≤ (dominantXs exC2).length ∧
      (colGaps exC2).any (fun g => COLUMN_GAP_THRESHOLD < g) = true) ∧
    (∃ d0 d1 ds L R,
      dominantXs exC2 = d0 :: d1 :: ds ∧
      splitMidX exC2 = (d0 + d1) / 2 ∧
      detectColumns exC2 = [L, R] ∧
      L.Perm (exC2.filter (fun i => i.x < splitMidX exC2)) ∧
      R.Perm (exC2.filter (fun i => splitMidX exC2 ≤ i.x)) ∧
      List.Sorted colOrd L ∧ List.Sorted colOrd R) :=
  ⟨⟨by decide, by decide, by decide⟩,
   c2_first_gap_split exC2 (by decide) (by decide) (by decide)⟩

/-! ## Claim C9 — OCR failure handling -/

/-- C9 (confirmed): if OCR for a page fails — including when the worker
pool's single retry after a `"terminated"` failure also fails —
`extractTextFromPage` returns the empty string instead of propagating the
exception; and a `"terminated"` first failure is retried exactly once,
after tearing down and reinitializing the pool (trace
`[submitJob, teardown, reinit, submitJob]`), the retry outcome being
returned as is. -/
theorem c9_ocr_failure_nonfatal (items : List Text) (o1 o2 : Except Text Text)
    (e msg : Text)
    (hshort : (jsTrim (joinSp items)).length ≤ TEXT_THRESHOLD) :
    ((recognizePool o1 o2).1 = .error e →
      extractTextFromPage ⟨items, (recognizePool o1 o2).1⟩ = []) ∧
    (o1 = .error msg → terminatedChars.IsInfix msg →
      (recognizePool o1 o2).2 = [.submitJob, .teardown, .reinit, .submitJob] ∧
      (recognizePool o1 o2).1 = o2) := by
  constructor
  · intro herr
    rw [extractTextFromPage]
    simp only [herr]
    rw [if_neg (by omega)]
  · intro ho1 hterm
    subst ho1
    rw [recognizePool]
    rw [if_pos hterm]
    exact ⟨rfl, rfl⟩

theorem c9_ocr_failure_nonfatal_witness :
    ((jsTrim (joinSp ([] : List Text))).length ≤ TEXT_THRESHOLD) ∧
    ((recognizePool (.error ("worker terminated".data)) (.error ("oom".data))).1 =
        .error ("oom".data) →
      extractTextFromPage ⟨[], (recognizePool (.error ("worker terminated".data))
        (.error ("oom".data))).1⟩ = []) ∧
    ((.error ("worker terminated".data) : Except Text Text) = .error ("worker terminated".data) →
      terminatedChars.IsInfix ("worker terminated".data) →
      (recognizePool (.error ("worker terminated".data)) (.error ("oom".data))).2 =
        [.submitJob, .teardown, .reinit, .submitJob] ∧
      (recognizePool (.error ("worker terminated".data)) (.error ("oom".data))).1 =
        .error ("oom".data)) :=
  ⟨by decide,
   (c9_ocr_failure_nonfatal [] (.error ("worker terminated".data)) (.error ("oom".data))
     ("oom".data) ("worker terminated".data) (by decide)).1,
   (c9_ocr_failure_nonfatal [] (.error ("worker terminated".data)) (.error ("oom".data))
     ("oom".data) ("worker terminated".data) (by decide)).2⟩

/-! ## Claim C8 — termination of segmentIntoPages -/

/-- A pathological paragraph: 242 spaces followed by 800 `x`.  Its length
1042 exceeds the page budget; it has no sentence boundary; its last space
before the limit sits at index 241 > 0.3·800, so the space-fallback branch
of `splitAtSentenceBoundary` fires — and trims the 241-space chunk to the
empty string.  The source then executes only `flushPage()` (a no-op on an
empty current page) and leaves `remaining` unchanged: the loop never
terminates. -/
def c8Bad : Text := List.replicate 242 ' ' ++ List.replicate 800 'x'

theorem c8BadLen : c8Bad.length = 1042 := by decide

theorem c8BadSplit : splitAtSentenceBoundary c8Bad 800 = ([], List.replicate 800 'x') := by
  decide

/-- One iteration of the oversized-paragraph loop on `c8Bad` (empty current
page, zero count) returns to the identical state: the loop body makes no
progress. -/
theorem c8Step (fuel : Nat) :
    splitLoop (fuel + 1) [] [] 0 c8Bad = splitLoop fuel [] [] 0 c8Bad := by
  simp only [splitLoop, c8BadLen, MAX_CHARS_PER_PAGE, MIN_ORPHAN_CHARS]
  norm_num [show (Int.toNat 800 : ℕ) = 800 from rfl, c8BadSplit]

/-- C8 (code bug): the claim — and the spec — assert that every branch of
the pagination split logic strictly shrinks the remaining text, so that
`segmentIntoPages` terminates on every finite paragraph list.  On the
paragraph `c8Bad` the empty-chunk branch leaves the state unchanged: the
embedded loop returns `none` for EVERY fuel bound (the source loops
forever), and `segmentIntoPages [c8Bad]` diverges. -/
theorem c8_split_loop_stuck :
    (∀ fuel, splitLoop fuel [] [] 0 c8Bad = none) ∧
    segmentIntoPages [c8Bad] = none := by
  have hall : ∀ fuel, splitLoop fuel [] [] 0 c8Bad = none := by
    intro fuel
    induction fuel with
    | zero => rfl
    | succ f ih => rw [c8Step, ih]
  refine ⟨hall, ?_⟩
  rw [segmentIntoPages]
  rw [if_neg (by decide : ¬ ([c8Bad].isEmpty = true))]
  have hseg : segLoop [c8Bad] [] [] 0 = none := by
    simp only [segLoop, c8BadLen, MAX_CHARS_PER_PAGE]
    norm_num
    rw [hall]
  rw [hseg]

/-! ## Claim C4 — the repetition threshold boundary -/

/-- A header fragment in the top zone of a height-100 page
(y/h = 0.95 > 1 − 0.08). -/
def headerItem : TextItem :=
  ⟨('M' :: 'y' :: ' ' :: 'H' :: 'e' :: 'a' :: 'd' :: 'e' :: 'r' :: []), 0, 95, 10, 12, []⟩

/-- The normalized zone string that `headerItem` tallies. -/
def headerNorm : Text := normalizeForMatch (joinSp [headerItem.str])

/-- Observe `k` pages each carrying `headerItem` in the top zone. -/
def addHeaderPages : Nat → DetState → DetState
  | 0, st => st
  | k + 1, st => addHeaderPages k (addPage st [headerItem] 100)

/-- Observe `k` pages with no fragments at all. -/
def addBlankPages : Nat → DetState → DetState
  | 0, st => st
  | k + 1, st => addBlankPages k (addPage st [] 100)

/-- A synthetic `n`-page document in which the header string appears in the
top zone of exactly `k` pages. -/
def synthDoc (n k : Nat) : DetState :=
  addBlankPages (n - k) (addHeaderPages k initDetector)

theorem addPageHeaderEmpty (n : Nat) :
    addPage ⟨[], [], n⟩ [headerItem] 100 = ⟨[(headerNorm, 1)], [], n + 1⟩ := by
  simp only [addPage]
  rw [if_neg (by norm_num : ¬ ((100 : ℚ) ≤ 0))]
  rw [show List.filter (fun i => decide (qsub 1 HEADER_FOOTER_MARGIN < qdiv i.y (100 : ℚ)))
      [headerItem] = [headerItem] from by decide]
  rw [show List.filter (fun i => decide (qdiv i.y (100 : ℚ) < HEADER_FOOTER_MARGIN))
      [headerItem] = [] from by decide]
  simp only [List.isEmpty_cons, List.isEmpty_nil, Bool.false_eq_true, if_false, if_true,
    List.map_cons, List.map_nil]
  rw [if_pos (by decide : 2 < (normalizeForMatch (joinSp [headerItem.str])).length)]
  rw [show tally [] (normalizeForMatch (joinSp [headerItem.str])) = [(headerNorm, 1)] from by decide]

theorem addPageHeaderCons (c n : Nat) :
    addPage ⟨[(headerNorm, c)], [], n⟩ [headerItem] 100 =
      ⟨[(headerNorm, c + 1)], [], n + 1⟩ := by
  simp only [addPage]
  rw [if_neg (by norm_num : ¬ ((100 : ℚ) ≤ 0))]
  rw [show List.filter (fun i => decide (qsub 1 HEADER_FOOTER_MARGIN < qdiv i.y (100 : ℚ)))
      [headerItem] = [headerItem] from by decide]
  rw [show List.filter (fun i => decide (qdiv i.y (100 : ℚ) < HEADER_FOOTER_MARGIN))
      [headerItem] = [] from by decide]
  simp only [List.isEmpty_cons, List.isEmpty_nil, Bool.false_eq_true, if_false, if_true,
    List.map_cons, List.map_nil]
  rw [if_pos (by decide : 2 < (normalizeForMatch (joinSp [headerItem.str])).length)]
  rw [show normalizeForMatch (joinSp [headerItem.str]) = headerNorm from rfl]
  rw [tally]
  rw [if_pos (by simp : ([(headerNorm, c)].any (fun e => e.1 = headerNorm)) = true)]
  simp

theorem addPageBlank (st : DetState) :
    addPage st [] 100 = { st with pageCount := st.pageCount + 1 } := by
  simp only [addPage]
  rw [if_neg (by norm_num : ¬ ((100 : ℚ) ≤ 0))]
  simp

theorem addHeaderPagesEq (k : Nat) :
    ∀ c n, addHeaderPages k ⟨[(headerNorm, c)], [], n⟩ =
      ⟨[(headerNorm, c + k)], [], n + k⟩ := by
  induction k with
  | zero => intro c n; simp [addHeaderPages]
  | succ k ih =>
    intro c n
    rw [addHeaderPages, addPageHeaderCons, ih]
    simp only [show c + 1 + k = c + (k + 1) from by omega,
      show n + 1 + k = n + (k + 1) from by omega]

theorem addHeaderPagesInit (k : Nat) (hk : 1 ≤ k) :
    addHeaderPages k initDetector = ⟨[(headerNorm, k)], [], k⟩ := by
  obtain ⟨j, rfl⟩ : ∃ j, k = j + 1 := ⟨k - 1, by omega⟩
  rw [addHeaderPages]
  rw [show addPage initDetector [headerItem] 100 = ⟨[(headerNorm, 1)], [], 1⟩ from
    addPageHeaderEmpty 0]
  rw [addHeaderPagesEq]
  simp only [show 1 + j = j + 1 from by omega]

theorem addBlankPagesEq (k : Nat) :
    ∀ st, addBlankPages k st = { st with pageCount := st.pageCount + k } := by
  induction k with
  | zero => intro st; simp [addBlankPages]
  | succ k ih =>
    intro st
    rw [addBlankPages, addPageBlank, ih]
    simp only [DetState.mk.injEq, true_and]
    omega

theorem synthDocEq (n k : Nat) (h1 : 1 ≤ k) (h2 : k ≤ n) :
    synthDoc n k = ⟨[(headerNorm, k)], [], n⟩ := by
  rw [synthDoc, addHeaderPagesInit k h1, addBlankPagesEq]
  simp only [DetState.mk.injEq, true_and]
  omega

theorem memPatterns (k n : Nat) :
    headerNorm ∈ getRepeatingPatterns ⟨[(headerNorm, k)], [], n⟩ ↔
      max 2 (qmul (n : ℚ) (mkRat 3 10)) ≤ (k : ℚ) := by
  simp [getRepeatingPatterns, List.mem_filter]

theorem qmulThr (n : ℕ) : qmul (n : ℚ) (mkRat 3 10) = (3 * n : ℚ) / 10 := by
  rw [qmul_eq, Rat.mkRat_eq_div]
  push_cast
  ring

/-- C4 (counterexample): for N = 1 the claim asserts that a top-zone string
tallied on exactly ⌈0.3·1⌉ = 1 of the pages enters the suppression set.
It does not: the threshold has floor 2 (`max(2, 0.3·pageCount)`), so the
string is not suppressed. -/
theorem c4_counterexample :
    (synthDoc 1 1).pageCount = 1 ∧
    (synthDoc 1 1).topTexts = [(headerNorm, 1)] ∧
    (1 : ℕ) = ⌈(3 * (1 : ℚ)) / 10⌉₊ ∧
    headerNorm ∉ getRepeatingPatterns (synthDoc 1 1) := by
  refine ⟨by decide, by decide, ?_, by decide⟩
  rw [eq_comm, Nat.ceil_eq_iff (by omega)]
  norm_num

/-- C4 (amended): for page counts N ≥ 4 (equivalently, whenever
⌈0.3·N⌉ ≥ 2 so the floor of the threshold is not binding), a top-zone
string tallied on exactly ⌈0.3·N⌉ of the N pages IS in the suppression
set, and on ⌈0.3·N⌉ − 1 pages is NOT; for N ≤ 3 the floor 2 of
`max(2, 0.3·pageCount)` makes the first half fail (see the
counterexample).  `(3N+9)/10` is the natural-number form of ⌈0.3·N⌉
(third conjunct). -/
theorem c4_threshold_boundary (N : ℕ) (h4 : 4 ≤ N) :
    (synthDoc N ((3 * N + 9) / 10)).pageCount = N ∧
    (synthDoc N ((3 * N + 9) / 10)).topTexts = [(headerNorm, (3 * N + 9) / 10)] ∧
    ((3 * N + 9) / 10 : ℕ) = ⌈(3 * (N : ℚ)) / 10⌉₊ ∧
    headerNorm ∈ getRepeatingPatterns (synthDoc N ((3 * N + 9) / 10)) ∧
    headerNorm ∉ getRepeatingPatterns (synthDoc N ((3 * N + 9) / 10 - 1)) := by
  set c : ℕ := (3 * N + 9) / 10 with hc
  have hc2 : 2 ≤ c := by omega
  have hcN : c ≤ N := by omega
  have hlo : 3 * N ≤ 10 * c := by omega
  have hhi : 10 * c ≤ 3 * N + 9 := by omega
  have hsd : synthDoc N c = ⟨[(headerNorm, c)], [], N⟩ := synthDocEq N c (by omega) hcN
  have hsd1 : synthDoc N (c - 1) = ⟨[(headerNorm, c - 1)], [], N⟩ :=
    synthDocEq N (c - 1) (by omega) (by omega)
  have hql : ((3 * N : ℚ) / 10) ≤ (c : ℚ) := by
    rw [div_le_iff₀ (by norm_num : (0 : ℚ) < 10)]
    exact_mod_cast (show 3 * N ≤ c * 10 from by omega)
  have hqg : ((c - 1 : ℕ) : ℚ) < (3 * N : ℚ) / 10 := by
    rw [lt_div_iff₀ (by norm_num : (0 : ℚ) < 10)]
    exact_mod_cast (show (c - 1) * 10 < 3 * N from by omega)
  refine ⟨?_, ?_, ?_, ?_, ?_⟩
  · rw [hsd]
  · rw [hsd]
  · rw [eq_comm, Nat.ceil_eq_iff (by omega)]
    constructor
    · exact_mod_cast hqg
    · exact_mod_cast hql
  · rw [hsd, memPatterns, qmulThr]
    rw [max_le_iff]
    constructor
    · exact_mod_cast hc2
    · exact hql
  · rw [hsd1, memPatterns, qmulThr]
    rw [max_le_iff]
    intro ⟨_, habs⟩
    exact absurd (lt_of_lt_of_le hqg habs) (lt_irrefl _)

theorem c4_threshold_boundary_witness :
    (4 ≤ 4) ∧
    ((synthDoc 4 ((3 * 4 + 9) / 10)).pageCount = 4 ∧
     (synthDoc 4 ((3 * 4 + 9) / 10)).topTexts = [(headerNorm, (3 * 4 + 9) / 10)] ∧
     ((3 * 4 + 9) / 10 : ℕ) = ⌈(3 * ((4 : ℕ) : ℚ)) / 10⌉₊ ∧
     headerNorm ∈ getRepeatingPatterns (synthDoc 4 ((3 * 4 + 9) / 10)) ∧
     headerNorm ∉ getRepeatingPatterns (synthDoc 4 ((3 * 4 + 9) / 10 - 1))) :=
  ⟨by decide, c4_threshold_boundary 4 (by decide)⟩

/-! ## Claim C1 — the page character budget -/

theorem pageSumAppend (a b : Page) : pageSum (a ++ b) = pageSum a + pageSum b := by
  simp [pageSum]

theorem pageSumSingle (t : Text) : pageSum [t] = t.length := by
  simp [pageSum]

/-- The characters counted by `pageSum` all appear in the page's
space-join, so the join is at least as long. -/
theorem pageSumLeJoin (p : Page) : pageSum p ≤ (joinSp p).length := by
  induction p with
  | nil => simp [pageSum, joinSp]
  | cons t ts ih =>
    cases ts with
    | nil => simp [pageSum, joinSp]
    | cons u us =>
      have hj : joinSp (t :: u :: us) = t ++ ' ' :: joinSp (u :: us) := rfl
      rw [hj]
      simp only [pageSum, List.map_cons, List.sum_cons, List.length_append,
        List.length_cons] at *
      omega

/-- Every chunk produced by `splitAtSentenceBoundary` fits in `maxChars`. -/
theorem chunkLenLe (t : Text) (m : Nat) :
    (splitAtSentenceBoundary t m).1.length ≤ m := by
  rw [splitAtSentenceBoundary]
  cases hf : (sentMatchGo (t.take (m + 50)) 0).reverse.find? (fun p => p.1 + p.2 ≤ m) with
  | some p =>
    have hp := List.find?_some hf
    simp only [decide_eq_true_eq] at hp
    simp only [hf]
    calc (jsTrim (t.take (p.1 + p.2))).length
        ≤ (t.take (p.1 + p.2)).length := jsTrimLenLe _
      _ ≤ p.1 + p.2 := by
          rw [List.length_take]
          omega
      _ ≤ m := hp
  | none =>
    simp only [hf]
    cases hl : lastSpaceIdx t m with
    | some ls =>
      have hls : ls ≤ m := by
        rw [lastSpaceIdx] at hl
        cases hj : (t.take (m + 1)).reverse.findIdx? (fun c => c = ' ') with
        | none => rw [hj] at hl; cases hl
        | some j =>
          rw [hj] at hl
          cases hl
          have hpre : (t.take (m + 1)).length ≤ m + 1 := by
            rw [List.length_take]
            omega
          omega
      simp only
      split_ifs
      · calc (jsTrim (t.take ls)).length ≤ (t.take ls).length := jsTrimLenLe _
          _ ≤ ls := by rw [List.length_take]; omega
          _ ≤ m := hls
      · calc (jsTrim (t.take m)).length ≤ (t.take m).length := jsTrimLenLe _
          _ ≤ m := by rw [List.length_take]; omega
    | none =>
      simp only
      calc (jsTrim (t.take m)).length ≤ (t.take m).length := jsTrimLenLe _
        _ ≤ m := by rw [List.length_take]; omega

/-- All pages of a list respect the greedy page budget. -/
def pagesOK (ps : List Page) : Prop := ∀ p ∈ ps, pageSum p ≤ MAX_CHARS_PER_PAGE

/-- Greedy-phase invariant: every page flushed by the oversized-paragraph
loop has at most `MAX_CHARS_PER_PAGE` characters, and the running count is
the current page's sum and never exceeds the budget. -/
theorem splitLoopSum : ∀ fuel pages page cnt rem out,
    splitLoop fuel pages page cnt rem = some out →
    pagesOK pages → pageSum page = cnt → cnt ≤ MAX_CHARS_PER_PAGE →
    pagesOK out.1 ∧ pageSum out.2.1 = out.2.2 ∧ out.2.2 ≤ MAX_CHARS_PER_PAGE := by
  intro fuel
  induction fuel with
  | zero =>
    intro pages page cnt rem out h
    exact absurd h (by simp [splitLoop])
  | succ f ih =>
    intro pages page cnt rem out h hP hpg hcnt
    rw [MAX_CHARS_PER_PAGE] at hcnt
    simp only [splitLoop, MAX_CHARS_PER_PAGE, MIN_ORPHAN_CHARS] at h
    have htn : (((800 : ℕ) : ℤ) - (cnt : ℤ)).toNat = 800 - cnt := by omega
    split_ifs at h with h1 h2 h3 h4 h5 h6
    · -- exit
      cases h
      exact ⟨hP, hpg, by rw [MAX_CHARS_PER_PAGE]; exact hcnt⟩
    · -- remaining fits on the current page
      refine ih _ _ _ _ _ h hP ?_ ?_
      · rw [pageSumAppend, hpg]
        simp [pageSum]
      · rw [MAX_CHARS_PER_PAGE]
        omega
    · -- sentence chunk pushed and page flushed
      refine ih _ _ _ _ _ h ?_ rfl (by rw [MAX_CHARS_PER_PAGE]; omega)
      intro p hp
      rcases List.mem_append.mp hp with hp | hp
      · exact hP p hp
      · have hch := chunkLenLe rem (((800 : ℕ) : ℤ) - (cnt : ℤ)).toNat
        rw [htn] at hch
        rw [List.mem_singleton] at hp
        subst hp
        rw [pageSumAppend, hpg, MAX_CHARS_PER_PAGE, htn]
        simp only [pageSum, List.map_cons, List.map_nil, List.sum_cons, List.sum_nil]
        omega
    · -- empty chunk, empty current page: state unchanged
      exact ih _ _ _ _ _ h hP hpg (by rw [MAX_CHARS_PER_PAGE]; exact hcnt)
    · -- empty chunk, flush the current page
      refine ih _ _ _ _ _ h ?_ rfl (by rw [MAX_CHARS_PER_PAGE]; omega)
      intro p hp
      rcases List.mem_append.mp hp with hp | hp
      · exact hP p hp
      · rw [List.mem_singleton] at hp
        subst hp
        rw [MAX_CHARS_PER_PAGE]
        omega
    · -- low-available branch, current page empty
      refine ih _ _ _ _ _ h ?_ rfl (by rw [MAX_CHARS_PER_PAGE]; omega)
      intro p hp
      rcases List.mem_append.mp hp with hp | hp
      · exact hP p hp
      · rw [List.mem_singleton] at hp
        subst hp
        have hch := chunkLenLe rem 800
        simp only [pageSum, List.map_cons, List.map_nil, List.sum_cons, List.sum_nil,
          MAX_CHARS_PER_PAGE]
        omega
    · -- low-available branch, current page flushed first
      refine ih _ _ _ _ _ h ?_ rfl (by rw [MAX_CHARS_PER_PAGE]; omega)
      intro p hp
      rcases List.mem_append.mp hp with hp | hp
      · rcases List.mem_append.mp hp with hp | hp
        · exact hP p hp
        · rw [List.mem_singleton] at hp
          subst hp
          rw [MAX_CHARS_PER_PAGE]
          omega
      · rw [List.mem_singleton] at hp
        subst hp
        have hch := chunkLenLe rem 800
        simp only [pageSum, List.map_cons, List.map_nil, List.sum_cons, List.sum_nil,
          MAX_CHARS_PER_PAGE]
        omega

/-- Greedy-phase invariant, outer loop. -/
theorem segLoopSum : ∀ paras pages page cnt out,
    segLoop paras pages page cnt = some out →
    pagesOK pages → pageSum page = cnt → cnt ≤ MAX_CHARS_PER_PAGE →
    pagesOK out.1 ∧ pageSum out.2.1 = out.2.2 ∧ out.2.2 ≤ MAX_CHARS_PER_PAGE := by
  intro paras
  induction paras with
  | nil =>
    intro pages page cnt out h hP hpg hcnt
    cases h
    exact ⟨hP, hpg, hcnt⟩
  | cons para ps ih =>
    intro pages page cnt out h hP hpg hcnt
    simp only [segLoop] at h
    have hPflush : pagesOK (pages ++ [page]) := by
      intro p hp
      rcases List.mem_append.mp hp with hp | hp
      · exact hP p hp
      · rw [List.mem_singleton] at hp
        subst hp
        rw [hpg]
        exact hcnt
    by_cases hfl : ((!page.isEmpty) = true ∧ MAX_CHARS_PER_PAGE < cnt + para.length)
    · rw [if_pos hfl] at h
      dsimp only at h
      by_cases hbig : MAX_CHARS_PER_PAGE < para.length
      · rw [if_pos hbig] at h
        cases hsl : splitLoop (para.length + 3) (pages ++ [page]) [] 0 para with
        | none => rw [hsl] at h; cases h
        | some st =>
          rw [hsl] at h
          obtain ⟨a, b, c⟩ := st
          dsimp only at h
          have hinv := splitLoopSum _ _ _ _ _ _ hsl hPflush rfl
            (by rw [MAX_CHARS_PER_PAGE]; omega)
          exact ih _ _ _ _ h hinv.1 hinv.2.1 hinv.2.2
      · rw [if_neg hbig] at h
        refine ih _ _ _ _ h hPflush ?_ ?_
        · first
          | rfl
          | simp [pageSum]
        · rw [MAX_CHARS_PER_PAGE] at hbig ⊢
          try simp only [pageSum, List.map_cons, List.map_nil, List.sum_cons,
            List.sum_nil, List.nil_append]
          omega
    · rw [if_neg hfl] at h
      dsimp only at h
      by_cases hbig : MAX_CHARS_PER_PAGE < para.length
      · rw [if_pos hbig] at h
        cases hsl : splitLoop (para.length + 3) pages page cnt para with
        | none => rw [hsl] at h; cases h
        | some st =>
          rw [hsl] at h
          obtain ⟨a, b, c⟩ := st
          dsimp only at h
          have hinv := splitLoopSum _ _ _ _ _ _ hsl hP hpg hcnt
          exact ih _ _ _ _ h hinv.1 hinv.2.1 hinv.2.2
      · rw [if_neg hbig] at h
        refine ih _ _ _ _ h hP ?_ ?_
        · rw [pageSumAppend, hpg]
          simp [pageSum]
        · rw [MAX_CHARS_PER_PAGE] at hbig hcnt ⊢
          by_cases hpe : page.isEmpty = true
          · have hpnil : page = [] := by
              cases page
              · rfl
              · simp at hpe
            subst hpnil
            simp only [pageSum, List.map_nil, List.sum_nil] at hpg
            omega
          · push_neg at hfl
            have := hfl (by simp [hpe])
            rw [MAX_CHARS_PER_PAGE] at this
            omega

/-- Widow/orphan pass invariant: if every page (processed and pending) has
at most 919 characters, so does every output page — and the guards of both
merges cap any newly merged page at 919. -/
theorem wofGoSum : ∀ rest acc,
    (∀ p ∈ acc, pageSum p ≤ 919) → (∀ p ∈ rest, pageSum p ≤ 919) →
    ∀ p ∈ wofGo acc rest, pageSum p ≤ 919 := by
  intro rest
  induction rest with
  | nil =>
    intro acc hA _ p hp
    rw [wofGo] at hp
    exact hA p (List.mem_reverse.mp hp)
  | cons cur rest ih =>
    intro acc hA hR p hp
    have hcur : pageSum cur ≤ 919 := hR cur (by simp)
    have hRrest : ∀ p ∈ rest, pageSum p ≤ 919 := fun q hq => hR q (by simp [hq])
    cases acc with
    | nil =>
      rw [wofGo.eq_def] at hp
      dsimp only at hp
      refine ih [cur] ?_ hRrest p hp
      intro q hq
      rw [List.mem_singleton] at hq
      subst hq
      exact hcur
    | cons prev accT =>
      have hprev : pageSum prev ≤ 919 := hA prev (by simp)
      have hAT : ∀ q ∈ accT, pageSum q ≤ 919 := fun q hq => hA q (by simp [hq])
      rw [wofGo.eq_def] at hp
      dsimp only at hp
      split_ifs at hp with hw
      · -- widow merge, loop breaks
        rw [List.mem_reverse] at hp
        rcases List.mem_cons.mp hp with hp | hp
        · subst hp
          rw [pageSumAppend]
          have h1 := pageSumLeJoin prev
          have h2 := pageSumLeJoin cur
          omega
        · exact hAT p hp
      · cases cur with
        | nil =>
          dsimp only at hp
          refine ih _ ?_ hRrest p hp
          intro q hq
          rcases List.mem_cons.mp hq with hq | hq
          · subst hq; simp [pageSum]
          · rcases List.mem_cons.mp hq with hq | hq
            · subst hq; exact hprev
            · exact hAT q hq
        | cons f curT =>
          have hcurT : pageSum curT ≤ 919 := by
            simp only [pageSum, List.map_cons, List.sum_cons] at hcur
            simp only [pageSum]
            omega
          dsimp only at hp
          split_ifs at hp with ho hsing
          · -- orphan moved, page emptied and spliced
            refine ih _ ?_ hRrest p hp
            intro q hq
            rcases List.mem_cons.mp hq with hq | hq
            · subst hq
              rw [pageSumAppend, pageSumSingle]
              have h1 := pageSumLeJoin prev
              omega
            · exact hAT q hq
          · -- orphan moved, remainder page kept
            refine ih _ ?_ hRrest p hp
            intro q hq
            rcases List.mem_cons.mp hq with hq | hq
            · subst hq; exact hcurT
            · rcases List.mem_cons.mp hq with hq | hq
              · subst hq
                rw [pageSumAppend, pageSumSingle]
                have h1 := pageSumLeJoin prev
                omega
              · exact hAT q hq
          · -- no orphan move
            refine ih _ ?_ hRrest p hp
            intro q hq
            rcases List.mem_cons.mp hq with hq | hq
            · subst hq; exact hcur
            · rcases List.mem_cons.mp hq with hq | hq
              · subst hq; exact hprev
              · exact hAT q hq

/-- C1 (counterexample): the claim says every page assembled from whole
paragraphs — including pages changed by the widow/orphan merges — stays
within `MAX_CHARS_PER_PAGE`.  Two paragraphs of 787 and 70 characters are
first paginated onto two pages; the 70-character widow is then merged
backward (the guard allows up to 115% of budget), producing a single page
of 857 > 800 characters. -/
theorem c1_counterexample :
    segmentIntoPages [List.replicate 787 'a', List.replicate 70 'b'] =
      some [[List.replicate 787 'a', List.replicate 70 'b']] ∧
    MAX_CHARS_PER_PAGE < pageSum [List.replicate 787 'a', List.replicate 70 'b'] := by
  constructor
  · decide
  · decide

/-- The final widow/orphan dispatch of `segmentIntoPages`, bounded. -/
theorem c1Outer (ps : List Page) (hP : pagesOK ps) :
    ∀ p ∈ (if 1 < ps.length then applyWidowOrphanFix ps else ps),
      pageSum p < 920 := by
  intro p hp
  split_ifs at hp with hlen
  · rw [applyWidowOrphanFix] at hp
    have hp2 := List.mem_filter.mp hp
    have h919 := wofGoSum ps [] (fun q hq => absurd hq (List.not_mem_nil q))
      (fun q hq => by
        have := hP q hq
        rw [MAX_CHARS_PER_PAGE] at this
        omega) p hp2.1
    omega
  · have := hP p hp
    rw [MAX_CHARS_PER_PAGE] at this
    omega

/-- C1 (amended): pages produced by `segmentIntoPages` can exceed the
budget after the widow/orphan pass (the widow merge allows up to 115% and
the orphan move up to 110% of budget), but never reach 115% of it: every
page's total paragraph character count is < `MAX_CHARS_PER_PAGE * 115/100`
(= 920); before the widow/orphan pass every page, including those produced
by the oversized-paragraph splitter, is within the plain budget
(`splitLoopSum`/`segLoopSum`). -/
theorem c1_pages_within_115_percent (paras : List Text) (pages : List Page)
    (h : segmentIntoPages paras = some pages) :
    ∀ p ∈ pages, pageSum p < MAX_CHARS_PER_PAGE * 115 / 100 := by
  have h920 : MAX_CHARS_PER_PAGE * 115 / 100 = 920 := by decide
  rw [h920]
  rw [segmentIntoPages] at h
  split_ifs at h with he
  · cases h
    intro p hp
    rw [List.mem_singleton] at hp
    subst hp
    simp [pageSum]
  · cases hsl : segLoop paras [] [] 0 with
    | none => rw [hsl] at h; cases h
    | some st =>
      rw [hsl] at h
      obtain ⟨pages0, page, cnt⟩ := st
      have hinv := segLoopSum _ _ _ _ _ hsl (fun p hp => absurd hp (List.not_mem_nil p))
        rfl (by rw [MAX_CHARS_PER_PAGE]; omega)
      simp only at h
      by_cases hpe : page.isEmpty = true
      · rw [if_pos hpe] at h
        cases h
        exact c1Outer pages0 hinv.1
      · rw [if_neg hpe] at h
        cases h
        refine c1Outer (pages0 ++ [page]) ?_
        intro q hq
        rcases List.mem_append.mp hq with hq | hq
        · exact hinv.1 q hq
        · rw [List.mem_singleton] at hq
          subst hq
          rw [hinv.2.1]
          exact hinv.2.2

theorem c1_pages_within_115_percent_witness :
    segmentIntoPages [('h' :: 'i' :: [])] = some [[('h' :: 'i' :: [])]] ∧
    ∀ p ∈ [[('h' :: 'i' :: [])]], pageSum p < MAX_CHARS_PER_PAGE * 115 / 100 :=
  ⟨by decide,
   c1_pages_within_115_percent [('h' :: 'i' :: [])] [[('h' :: 'i' :: [])]] (by decide)⟩

/-! ## Claim C7 — chapters and pages are never empty -/

theorem countNWAppend (a b : Text) : countNW (a ++ b) = countNW a + countNW b := by
  simp [countNW]

theorem countNWReverse (t : Text) : countNW t.reverse = countNW t := by
  simp [countNW, List.filter_reverse]

theorem countNWDropWs (t : Text) : countNW (t.dropWhile jsWs) = countNW t := by
  conv_rhs => rw [← List.takeWhile_append_dropWhile (p := jsWs) (l := t)]
  rw [countNWAppend]
  have hz : countNW (t.takeWhile jsWs) = 0 := by
    rw [countNW, List.length_eq_zero]
    rw [List.filter_eq_nil_iff]
    intro c hc
    have := List.mem_takeWhile_imp hc
    simp [this]
  omega

/-- Trimming only removes whitespace: the non-whitespace character count is
unchanged. -/
theorem countNWTrim (t : Text) : countNW (jsTrim t) = countNW t := by
  rw [jsTrim, countNWReverse, countNWDropWs, countNWReverse, countNWDropWs]

theorem countNWTakeDrop (k : Nat) (t : Text) :
    countNW (t.take k) + countNW (t.drop k) = countNW t := by
  rw [← countNWAppend, List.take_append_drop]

/-- `splitAtSentenceBoundary` loses no non-whitespace characters. -/
theorem splitNW (t : Text) (m : Nat) :
    countNW (splitAtSentenceBoundary t m).1 + countNW (splitAtSentenceBoundary t m).2 =
      countNW t := by
  rw [splitAtSentenceBoundary]
  cases hf : (sentMatchGo (t.take (m + 50)) 0).reverse.find? (fun p => p.1 + p.2 ≤ m) with
  | some p =>
    simp only [hf]
    rw [countNWTrim, countNWTrim, countNWTakeDrop]
  | none =>
    simp only [hf]
    cases hl : lastSpaceIdx t m with
    | some ls =>
      simp only
      split_ifs
      · rw [countNWTrim, countNWTrim, countNWTakeDrop]
      · rw [countNWTrim, countNWTrim, countNWTakeDrop]
    | none =>
      simp only
      rw [countNWTrim, countNWTrim, countNWTakeDrop]

/-- Non-whitespace character count of a page. -/
def countNWPage (p : Page) : Nat := (p.map countNW).sum

/-- Non-whitespace character count of a page list. -/
def countNWPages (ps : List Page) : Nat := (ps.map countNWPage).sum

theorem countNWPageAppend (a b : Page) :
    countNWPage (a ++ b) = countNWPage a + countNWPage b := by
  simp [countNWPage]

theorem countNWPagesAppend (a b : List Page) :
    countNWPages (a ++ b) = countNWPages a + countNWPages b := by
  simp [countNWPages]

theorem countNWPagesReverse (ps : List Page) :
    countNWPages ps.reverse = countNWPages ps := by
  simp [countNWPages, List.map_reverse, List.sum_reverse]

theorem countNWPageSingle (t : Text) : countNWPage [t] = countNW t := by
  simp [countNWPage]

theorem countNWNil : countNW ([] : Text) = 0 := rfl

theorem countNWPageNil : countNWPage ([] : Page) = 0 := rfl

theorem countNWPagesNil : countNWPages ([] : List Page) = 0 := rfl

theorem countNWPagesSingle (p : Page) : countNWPages [p] = countNWPage p := by
  simp [countNWPages]

theorem countNWPagesCons (p : Page) (ps : List Page) :
    countNWPages (p :: ps) = countNWPage p + countNWPages ps := by
  simp [countNWPages]

theorem countNWPageCons (t : Text) (p : Page) :
    countNWPage (t :: p) = countNW t + countNWPage p := by
  simp [countNWPage]

/-- The oversized-paragraph loop loses no non-whitespace characters. -/
theorem splitLoopNW : ∀ fuel pages page cnt rem out,
    splitLoop fuel pages page cnt rem = some out →
    countNWPages out.1 + countNWPage out.2.1 =
      countNWPages pages + countNWPage page + countNW rem := by
  intro fuel
  induction fuel with
  | zero =>
    intro pages page cnt rem out h
    exact absurd h (by simp [splitLoop])
  | succ f ih =>
    intro pages page cnt rem out h
    simp only [splitLoop, MAX_CHARS_PER_PAGE, MIN_ORPHAN_CHARS] at h
    split_ifs at h with h1 h2 h3 h4 h5 h6
    · cases h
      have hrem : rem = [] := List.length_eq_zero.mp h1
      subst hrem
      show countNWPages pages + countNWPage page =
        countNWPages pages + countNWPage page + countNW []
      rw [countNWNil]
      omega
    · have hthis := ih _ _ _ _ _ h
      rw [countNWPageAppend, countNWPageSingle, countNWNil] at hthis
      omega
    · have hthis := ih _ _ _ _ _ h
      rw [countNWPagesAppend, countNWPagesSingle, countNWPageAppend,
        countNWPageSingle, countNWPageNil] at hthis
      have hs := splitNW rem (((800 : ℕ) : ℤ) - (cnt : ℤ)).toNat
      omega
    · have hthis := ih _ _ _ _ _ h
      omega
    · have hthis := ih _ _ _ _ _ h
      rw [countNWPagesAppend, countNWPagesSingle, countNWPageNil] at hthis
      omega
    · have hthis := ih _ _ _ _ _ h
      rw [countNWPagesAppend, countNWPagesSingle, countNWPageSingle,
        countNWPageNil] at hthis
      have hs := splitNW rem 800
      have hpe : page.isEmpty = true := by assumption
      have hpnil : page = [] := by
        cases page
        · rfl
        · simp at hpe
      subst hpnil
      rw [countNWPageNil]
      omega
    · have hthis := ih _ _ _ _ _ h
      rw [countNWPagesAppend, countNWPagesAppend, countNWPagesSingle,
        countNWPagesSingle, countNWPageSingle, countNWPageNil] at hthis
      have hs := splitNW rem 800
      omega

/-- The outer pagination loop loses no non-whitespace characters. -/
theorem segLoopNW : ∀ paras pages page cnt out,
    segLoop paras pages page cnt = some out →
    countNWPages out.1 + countNWPage out.2.1 =
      countNWPages pages + countNWPage page + (paras.map countNW).sum := by
  intro paras
  induction paras with
  | nil =>
    intro pages page cnt out h
    cases h
    simp
  | cons para ps ih =>
    intro pages page cnt out h
    simp only [segLoop] at h
    by_cases hfl : ((!page.isEmpty) = true ∧ MAX_CHARS_PER_PAGE < cnt + para.length)
    · rw [if_pos hfl] at h
      dsimp only at h
      by_cases hbig : MAX_CHARS_PER_PAGE < para.length
      · rw [if_pos hbig] at h
        cases hsl : splitLoop (para.length + 3) (pages ++ [page]) [] 0 para with
        | none => rw [hsl] at h; cases h
        | some st =>
          rw [hsl] at h
          obtain ⟨a, b, c⟩ := st
          dsimp only at h
          have h2 := splitLoopNW _ _ _ _ _ _ hsl
          dsimp only at h2
          have h3 := ih _ _ _ _ h
          rw [countNWPagesAppend, countNWPagesSingle, countNWPageNil] at h2
          simp only [List.map_cons, List.sum_cons]
          omega
      · rw [if_neg hbig] at h
        have h3 := ih _ _ _ _ h
        rw [countNWPagesAppend, countNWPagesSingle] at h3
        try rw [show (([] : Page) ++ [para]) = [para] from rfl] at h3
        rw [countNWPageSingle] at h3
        simp only [List.map_cons, List.sum_cons]
        omega
    · rw [if_neg hfl] at h
      dsimp only at h
      by_cases hbig : MAX_CHARS_PER_PAGE < para.length
      · rw [if_pos hbig] at h
        cases hsl : splitLoop (para.length + 3) pages page cnt para with
        | none => rw [hsl] at h; cases h
        | some st =>
          rw [hsl] at h
          obtain ⟨a, b, c⟩ := st
          dsimp only at h
          have h2 := splitLoopNW _ _ _ _ _ _ hsl
          dsimp only at h2
          have h3 := ih _ _ _ _ h
          simp only [List.map_cons, List.sum_cons]
          omega
      · rw [if_neg hbig] at h
        have h3 := ih _ _ _ _ h
        rw [countNWPageAppend, countNWPageSingle] at h3
        simp only [List.map_cons, List.sum_cons]
        omega

/-- The widow/orphan loop only rearranges content. -/
theorem wofGoNW : ∀ rest acc,
    countNWPages (wofGo acc rest) = countNWPages acc + countNWPages rest := by
  intro rest
  induction rest with
  | nil =>
    intro acc
    rw [wofGo, countNWPagesReverse, countNWPagesNil]
    omega
  | cons cur rest ih =>
    intro acc
    cases acc with
    | nil =>
      rw [wofGo.eq_def]
      dsimp only
      rw [ih]
      simp only [countNWPagesCons, countNWPagesNil, countNWPagesSingle]
      omega
    | cons prev accT =>
      rw [wofGo.eq_def]
      dsimp only
      split_ifs with hw
      · have hrest : rest = [] := by
          have hre := hw.1
          cases rest
          · rfl
          · simp at hre
        subst hrest
        rw [countNWPagesReverse]
        simp only [countNWPagesCons, countNWPagesNil, countNWPageAppend]
        omega
      · cases cur with
        | nil =>
          dsimp only
          rw [ih]
          simp only [countNWPagesCons, countNWPagesNil, countNWPageNil]
          omega
        | cons f curT =>
          dsimp only
          split_ifs with ho hsing
          · rw [ih]
            have hsnil : curT = [] := by
              cases curT
              · rfl
              · simp at hsing
            subst hsnil
            simp only [countNWPagesCons, countNWPagesNil, countNWPageAppend,
              countNWPageSingle, countNWPageCons, countNWPageNil]
            omega
          · rw [ih]
            simp only [countNWPagesCons, countNWPagesNil, countNWPageAppend,
              countNWPageSingle, countNWPageCons, countNWPageNil]
            omega
          · rw [ih]
            simp only [countNWPagesCons, countNWPagesNil]
            omega

theorem countNWZeroOfTrimNil {t : Text} (h : jsTrim t = []) : countNW t = 0 := by
  rw [← countNWTrim, h]
  rfl

/-- The final blank-page filter removes only pages with no non-whitespace
content. -/
theorem filterNW (ps : List Page) :
    countNWPages (ps.filter (fun p => !p.isEmpty && pageNonBlank p)) =
      countNWPages ps := by
  induction ps with
  | nil => rfl
  | cons p ps ih =>
    rw [List.filter_cons]
    by_cases hk : ((!p.isEmpty && pageNonBlank p) = true)
    · rw [if_pos hk]
      simp only [countNWPages, List.map_cons, List.sum_cons] at ih ⊢
      omega
    · rw [if_neg hk]
      have hz : countNWPage p = 0 := by
        by_cases hpe : p.isEmpty = true
        · have : p = [] := by
            cases p
            · rfl
            · simp at hpe
          subst this
          rfl
        · have hnb : pageNonBlank p = false := by
            cases hnb : pageNonBlank p
            · rfl
            · exact absurd (by simp [hpe, hnb]) hk
          rw [pageNonBlank] at hnb
          rw [countNWPage]
          apply List.sum_eq_zero
          intro x hx
          rw [List.mem_map] at hx
          obtain ⟨t, ht, rfl⟩ := hx
          have htr : (jsTrim t).isEmpty = true := by
            by_contra hc
            have : p.any (fun t => !(jsTrim t).isEmpty) = true :=
              List.any_eq_true.mpr ⟨t, ht, by simp [hc]⟩
            rw [this] at hnb
            cases hnb
          apply countNWZeroOfTrimNil
          cases hjt : jsTrim t
          · rfl
          · rw [hjt] at htr; cases htr
      simp only [countNWPages, List.map_cons, List.sum_cons] at ih ⊢
      omega

theorem existsPosOfSumPos {l : List Nat} (h : 0 < l.sum) : ∃ x ∈ l, 0 < x := by
  by_contra hc
  push_neg at hc
  have hz : l.sum = 0 := List.sum_eq_zero (fun x hx => by have := hc x hx; omega)
  omega

/-- A page with positive non-whitespace count is nonempty and non-blank. -/
theorem pageGoodOfPos {p : Page} (h : 0 < countNWPage p) :
    p ≠ [] ∧ pageNonBlank p = true := by
  rw [countNWPage] at h
  obtain ⟨x, hx, hxpos⟩ := existsPosOfSumPos h
  rw [List.mem_map] at hx
  obtain ⟨t, ht, rfl⟩ := hx
  constructor
  · intro hnil
    subst hnil
    cases ht
  · apply List.any_eq_true.mpr
    refine ⟨t, ht, ?_⟩
    have : jsTrim t ≠ [] := by
      intro hz
      rw [countNWZeroOfTrimNil hz] at hxpos
      omega
    simp only [Bool.not_eq_true']
    cases hjt : jsTrim t
    · exact absurd hjt this
    · rfl

/-- The final widow/orphan dispatch of `segmentIntoPages`, content side. -/
theorem segPagesGoodOuter (ps : List Page) (pages : List Page)
    (htot : 0 < countNWPages ps)
    (h : some (if 1 < ps.length then applyWidowOrphanFix ps else ps) = some pages) :
    pages ≠ [] ∧ ∀ pg ∈ pages, pg ≠ [] ∧ pageNonBlank pg = true := by
  cases h
  split_ifs with hlen
  · constructor
    · intro hnil
      have hc : countNWPages (applyWidowOrphanFix ps) = countNWPages ps := by
        rw [applyWidowOrphanFix, filterNW, wofGoNW]
        simp [countNWPages]
      rw [hnil, countNWPagesNil] at hc
      omega
    · intro pg hpg
      rw [applyWidowOrphanFix] at hpg
      have hk := (List.mem_filter.mp hpg).2
      simp only [Bool.and_eq_true, Bool.not_eq_true'] at hk
      refine ⟨?_, hk.2⟩
      intro hnil
      subst hnil
      simp at hk
  · have hne : ps ≠ [] := by
      intro hnil
      subst hnil
      simp only [countNWPages, List.map_nil, List.sum_nil] at htot
      omega
    cases ps with
    | nil => exact absurd rfl hne
    | cons pg rest2 =>
      cases rest2 with
      | nil =>
        refine ⟨by simp, ?_⟩
        intro q hq
        rw [List.mem_singleton] at hq
        subst hq
        apply pageGoodOfPos
        rw [countNWPagesCons, countNWPagesNil] at htot
        omega
      | cons b t =>
        exact absurd (by simp only [List.length_cons]; omega) hlen

/-- `segmentIntoPages` on a nonempty list of non-blank paragraphs yields a
nonempty page list in which every page is nonempty and non-blank. -/
theorem segPagesGood (paras : List Text) (pages : List Page)
    (hne : paras ≠ []) (hpos : ∀ p ∈ paras, 0 < countNW p)
    (h : segmentIntoPages paras = some pages) :
    pages ≠ [] ∧ ∀ pg ∈ pages, pg ≠ [] ∧ pageNonBlank pg = true := by
  have htot : 0 < (paras.map countNW).sum := by
    cases paras with
    | nil => exact absurd rfl hne
    | cons q qs =>
      have := hpos q (by simp)
      simp only [List.map_cons, List.sum_cons]
      omega
  rw [segmentIntoPages] at h
  split_ifs at h with he
  · have hnil : paras = [] := by
      cases paras
      · rfl
      · simp at he
    exact absurd hnil hne
  · cases hsl : segLoop paras [] [] 0 with
    | none => rw [hsl] at h; cases h
    | some st =>
      rw [hsl] at h
      obtain ⟨pages0, page, cnt⟩ := st
      have hnw := segLoopNW _ _ _ _ _ hsl
      dsimp only at hnw
      rw [countNWPagesNil, countNWPageNil] at hnw
      simp only at h
      by_cases hpe : page.isEmpty = true
      · rw [if_pos hpe] at h
        have hpnil : page = [] := by
          cases page
          · rfl
          · simp at hpe
        subst hpnil
        have htotP : 0 < countNWPages pages0 := by
          rw [countNWPageNil] at hnw
          omega
        exact segPagesGoodOuter pages0 pages htotP h
      · rw [if_neg hpe] at h
        have htotP : 0 < countNWPages (pages0 ++ [page]) := by
          rw [countNWPagesAppend, countNWPagesSingle]
          omega
        exact segPagesGoodOuter (pages0 ++ [page]) pages htotP h

/-- A well-formed chapter: nonempty paragraph list, nonempty page list,
every page nonempty and containing non-whitespace content. -/
def GoodCh (ch : ChapterL) : Prop :=
  ch.paragraphs ≠ [] ∧ ch.pages ≠ [] ∧
    ∀ pg ∈ ch.pages, pg ≠ [] ∧ pageNonBlank pg = true

instance (ch : ChapterL) : Decidable (GoodCh ch) := by
  unfold GoodCh
  infer_instance

theorem buildGoGood : ∀ ps title cur acc out,
    buildGo ps title cur acc = some out →
    (∀ p ∈ ps, 0 < countNW p) → (∀ p ∈ cur, 0 < countNW p) →
    (∀ ch ∈ acc, GoodCh ch) → ∀ ch ∈ out, GoodCh ch := by
  intro ps
  induction ps with
  | nil =>
    intro title cur acc out h _ hcur hacc
    simp only [buildGo] at h
    split_ifs at h with hce
    · cases h
      exact hacc
    · cases hsp : segmentIntoPages cur with
      | none => rw [hsp] at h; cases h
      | some pages =>
        rw [hsp] at h
        cases h
        intro ch hch
        rcases List.mem_append.mp hch with hch | hch
        · exact hacc ch hch
        · rw [List.mem_singleton] at hch
          subst hch
          have hne : cur ≠ [] := by
            intro hnil
            subst hnil
            simp at hce
          have hsg := segPagesGood cur pages hne hcur hsp
          exact ⟨hne, hsg.1, hsg.2⟩
  | cons para ps ih =>
    intro title cur acc out h hps hcur hacc
    simp only [buildGo] at h
    split_ifs at h with hdt hce
    · exact ih _ _ _ _ h (fun p hp => hps p (by simp [hp]))
        (fun p hp => absurd hp (List.not_mem_nil p)) hacc
    · cases hsp : segmentIntoPages cur with
      | none => rw [hsp] at h; cases h
      | some pages =>
        rw [hsp] at h
        refine ih _ _ _ _ h (fun p hp => hps p (by simp [hp]))
          (fun p hp => absurd hp (List.not_mem_nil p)) ?_
        intro ch hch
        rcases List.mem_append.mp hch with hch | hch
        · exact hacc ch hch
        · rw [List.mem_singleton] at hch
          subst hch
          have hne : cur ≠ [] := by
            intro hnil
            subst hnil
            simp at hce
          have hsg := segPagesGood cur pages hne hcur hsp
          exact ⟨hne, hsg.1, hsg.2⟩
    · refine ih _ _ _ _ h (fun p hp => hps p (by simp [hp])) ?_ hacc
      intro p hp
      rcases List.mem_append.mp hp with hp | hp
      · exact hcur p hp
      · rw [List.mem_singleton] at hp
        subst hp
        exact hps p (by simp)

/-- C7 (counterexample): the claim quantifies over every paragraph-list
input; on the input consisting of the single empty-string paragraph,
`buildChapters` emits a chapter whose only page contains only the empty
string — a page with no non-whitespace content. -/
theorem c7_counterexample :
    buildChapters [([] : Text)] =
      some [⟨beginningTitle, [([] : Text)], [[([] : Text)]]⟩] ∧
    pageNonBlank [([] : Text)] = false := by
  constructor
  · decide
  · decide

/-- C7 (amended): for every paragraph-list input whose paragraphs each
contain at least one non-whitespace character (which includes the empty
list — the placeholder case), `buildChapters` returns a non-empty chapter
list in which every chapter has at least one paragraph and at least one
page, and every page of every chapter is nonempty and contains a paragraph
with non-whitespace content; on the empty input the single placeholder
chapter "Document"/"No readable content found." is returned. -/
theorem c7_chapters_nonempty (paras : List Text) (chs : List ChapterL)
    (hnw : ∀ p ∈ paras, 0 < countNW p)
    (h : buildChapters paras = some chs) :
    chs ≠ [] ∧
    (∀ ch ∈ chs, ch.paragraphs ≠ [] ∧ ch.pages ≠ [] ∧
      ∀ pg ∈ ch.pages, pg ≠ [] ∧ pageNonBlank pg = true) ∧
    (paras = [] → chs = [placeholderChapter]) := by
  rw [buildChapters] at h
  cases hbg : buildGo paras beginningTitle [] [] with
  | none => rw [hbg] at h; cases h
  | some chapters =>
    rw [hbg] at h
    cases h
    refine ⟨?_, ?_, ?_⟩
    · split_ifs with hce
      · simp
      · intro hnil
        rw [hnil] at hce
        simp at hce
    · intro ch hch
      split_ifs at hch with hce
      · rw [List.mem_singleton] at hch
        subst hch
        exact (by decide : GoodCh placeholderChapter)
      · exact buildGoGood _ _ _ _ _ hbg hnw
          (fun p hp => absurd hp (List.not_mem_nil p))
          (fun c hc => absurd hc (List.not_mem_nil c)) ch hch
    · intro hp
      subst hp
      have hbg0 : buildGo ([] : List Text) beginningTitle [] [] =
          some ([] : List ChapterL) := by decide
      rw [hbg0] at hbg
      cases hbg
      simp

theorem c7_chapters_nonempty_witness :
    ((∀ p ∈ [('H' :: 'i' :: [])], 0 < countNW p) ∧
      buildChapters [('H' :: 'i' :: [])] =
        some [⟨beginningTitle, [('H' :: 'i' :: [])], [[('H' :: 'i' :: [])]]⟩]) ∧
    ([(⟨beginningTitle, [('H' :: 'i' :: [])], [[('H' :: 'i' :: [])]]⟩ : ChapterL)] ≠ [] ∧
      (∀ ch ∈ [(⟨beginningTitle, [('H' :: 'i' :: [])], [[('H' :: 'i' :: [])]]⟩ : ChapterL)],
        ch.paragraphs ≠ [] ∧ ch.pages ≠ [] ∧
          ∀ pg ∈ ch.pages, pg ≠ [] ∧ pageNonBlank pg = true) ∧
      ([('H' :: 'i' :: [])] = ([] : List Text) →
        [(⟨beginningTitle, [('H' :: 'i' :: [])], [[('H' :: 'i' :: [])]]⟩ : ChapterL)] =
          [placeholderChapter])) :=
  ⟨⟨by decide, by decide⟩,
   c7_chapters_nonempty [('H' :: 'i' :: [])]
     [⟨beginningTitle, [('H' :: 'i' :: [])], [[('H' :: 'i' :: [])]]⟩]
     (by decide) (by decide)⟩

end FlipeX
